import Mathlib

/-!
Verification development for the VS-Code tab-splitter extension.

The extension's commands (split selected tabs, create / open / list / delete
split-tab groups, close split tabs) are embedded below as pure functions over
an explicit model of the editor window.  The embedding follows the fullest
revision of the extension (the revision that tracks `splitTabUris`, snapshots
`initialTabOrder`, and restores order on close); where a command also exists
in the plainer `extension.ts` revision the differences are noted in the
doc comments.

Host services (quick picks, input boxes, save prompts) are modelled as
explicit parameters; the window-mutating host calls (`showTextDocument`,
`workbench.action.closeActiveEditor`, `workbench.action.editorLayoutSingle`,
`moveActiveEditor`) are modelled as functions on the window model.
-/

namespace TabSplitter

/-- Document identifiers are the string form of a VS Code `Uri`
(`uri.toString()` in the source). -/
abbrev Uri := String

/-- The input carried by an editor tab, mirroring the shapes of VS Code's
`TabInputText` (a `uri` field), `TabInputTextDiff` (`original`/`modified`
fields, no `uri` field), `TabInputCustom` / `TabInputNotebook` (a `viewType`
and a `uri` field) and `TabInputWebview` (a `viewType` field only). -/
inductive TabInput where
  | text (uri : Uri)
  | textDiff (original modified : Uri)
  | custom (viewType : String) (uri : Uri)
  | webview (viewType : String)
  deriving DecidableEq, Repr

/-- The `uri` property of a tab input, when the input object carries one:
`text` and `custom` inputs expose a `uri` field, `textDiff` and `webview`
do not. -/
def TabInput.uriProp : TabInput → Option Uri
  | .text u => some u
  | .textDiff _ _ => none
  | .custom _ u => some u
  | .webview _ => none

/-- `isTextTabInput` from the full revision:
`typeof input === "object" && input !== null && "uri" in input`.
It tests only for the presence of a `uri` property, so it also accepts
`custom` (custom-editor / notebook) inputs, not just `text` inputs. -/
def isTextTabInput (input : TabInput) : Bool :=
  input.uriProp.isSome

/-- The `tab.input instanceof vscode.TabInputText` test used instead of
`isTextTabInput` by the `extension.ts` revision: true only for plain
text-document inputs. -/
def isInstanceOfTabInputText : TabInput → Bool
  | .text _ => true
  | _ => false

/-- A host editor tab: a display label and an input. -/
structure Tab where
  label : String
  input : TabInput
  deriving DecidableEq, Repr

/-- A host tab group: a view column and the tabs it holds, left to right. -/
structure TabGroup where
  viewColumn : Nat
  tabs : List Tab
  deriving DecidableEq, Repr

/-- The editor window: `vscode.window.tabGroups.all` (in column order),
the active text editor's document uri and view column
(`vscode.window.activeTextEditor`), and the column of
`vscode.window.tabGroups.activeTabGroup`. -/
structure Window where
  groups : List TabGroup
  active : Option (Uri × Nat)
  activeGroupCol : Nat
  deriving DecidableEq, Repr

/-- A persisted tab group: `interface SplitTabGroup { name; uris }`. -/
structure SplitTabGroup where
  name : String
  uris : List Uri
  deriving DecidableEq, Repr

/-- The controller state: the window, the module-level `splitTabUris`
tracking list, the workspace-scoped `initialTabOrder` entry, the global
`splitTabGroups` store, and the set of dirty (unsaved) documents. -/
structure ExtState where
  window : Window
  splitTabUris : List Uri
  workspaceInitialOrder : List Uri
  splitTabGroups : List SplitTabGroup
  dirty : List Uri
  deriving DecidableEq, Repr

/-- The user's answer to the "unsaved changes" warning: the `"Save"` button,
the `"Skip"` button, or dismissing the prompt (any other outcome). -/
inductive SaveChoice where
  | save
  | skip
  | dismiss
  deriving DecidableEq, Repr

/-- The user's answer to a Yes/No warning prompt: `"Yes"`, `"No"`, or
dismissing the prompt. -/
inductive ConfirmChoice where
  | yes
  | no
  | dismissed
  deriving DecidableEq, Repr

/-- Look a tab up in a tab list by the uri its input exposes. -/
def findTabByUri (tabs : List Tab) (u : Uri) : Option Tab :=
  tabs.find? (fun t => t.input.uriProp == some u)

/-- `vscode.window.showTextDocument(doc, { viewColumn: c, preserveFocus })`:
if column `c` already shows a tab for the document, that tab is revealed;
otherwise a new text tab for the document is appended to column `c`
(the column's group being created at the end of the group list if absent).
Unless `preserveFocus` is set, the shown editor becomes active. -/
def showTextDocumentIn (w : Window) (u : Uri) (c : Nat) (preserveFocus : Bool) : Window :=
  let w1 :=
    if w.groups.any (fun g => g.viewColumn == c) then
      { w with groups := w.groups.map (fun g =>
          if g.viewColumn = c then
            if (findTabByUri g.tabs u).isSome then g
            else { g with tabs := g.tabs ++ [{ label := u, input := .text u }] }
          else g) }
    else
      { w with groups := w.groups ++ [{ viewColumn := c, tabs := [{ label := u, input := .text u }] }] }
  if preserveFocus then w1 else { w1 with active := some (u, c), activeGroupCol := c }

/-- `workbench.action.closeActiveEditor`: remove the active editor's tab from
its group.  Afterwards the model records no active editor (the host would
focus some other, unspecified tab; no consumer below depends on which). -/
def closeActiveEditor (w : Window) : Window :=
  match w.active with
  | none => w
  | some (u, c) =>
    { w with
      groups := w.groups.map (fun g =>
        if g.viewColumn = c then
          { g with tabs := g.tabs.eraseP (fun t => t.input.uriProp == some u) }
        else g),
      active := none }

/-- One closing step of `closeSplitTabsCmd`: reveal the document in its
group's column, then issue `closeActiveEditor`. -/
def closeTabInGroup (w : Window) (c : Nat) (u : Uri) : Window :=
  closeActiveEditor (showTextDocumentIn w u c false)

/-- One iteration of the inner loop of the closing pass: when the snapshot
tab's input passes `isTextTabInput` and its uri is tracked, reveal and close
it in column `c`. -/
def closeTabStep (tracked : List Uri) (c : Nat) (acc : Window) (t : Tab) : Window :=
  match t.input.uriProp with
  | some u => if tracked.contains u then closeTabInGroup acc c u else acc
  | none => acc

/-- One iteration of the outer loop of the closing pass: skip the column-One
group, otherwise run the inner loop over the group's tab snapshot. -/
def closeGroupPass (tracked : List Uri) (acc : Window) (g : TabGroup) : Window :=
  if g.viewColumn = 1 then acc else g.tabs.foldl (closeTabStep tracked g.viewColumn) acc

/-- The closing pass of `closeSplitTabsCmd` (full revision): walk every group
other than column One; for each tab whose input passes `isTextTabInput` and
whose uri is in the tracked list, reveal it and close the active editor.
The iteration runs over the group/tab snapshot taken at loop entry. -/
def closeSplitPass (tracked : List Uri) (w : Window) : Window :=
  w.groups.foldl (closeGroupPass tracked) w

/-- Whether a tab is one the closing pass closes: its input carries a uri
that is in the tracked list. -/
def tabTracked (tracked : List Uri) (t : Tab) : Bool :=
  match t.input.uriProp with
  | some u => tracked.contains u
  | none => false

/-- List-level mirror of `closeTabStep`: the effect of one inner-loop
iteration on the tab list of the column being processed. -/
def eraseStep (tracked : List Uri) (cur : List Tab) (t : Tab) : List Tab :=
  match t.input.uriProp with
  | some u =>
    if tracked.contains u then cur.eraseP (fun x => x.input.uriProp == some u) else cur
  | none => cur

/-- A document view (tab input) is open somewhere in the window. -/
def inputOpenIn (w : Window) (i : TabInput) : Prop :=
  ∃ g ∈ w.groups, ∃ t ∈ g.tabs, t.input = i

/-- `tabsToMove` collection of `closeSplitTabsCmd`: every tab outside column
One whose input passes `isTextTabInput` and whose uri differs from the
active editor's uri. -/
def collectTabsToMove (w : Window) (activeUri : Option Uri) : List Tab :=
  (w.groups.filter (fun g => g.viewColumn != 1)).flatMap
    (fun g => g.tabs.filter (fun t =>
      match t.input.uriProp with
      | some u => some u != activeUri
      | none => false))

/-- JavaScript `Array.prototype.indexOf`: index of the first occurrence,
`-1` when absent. -/
def jsIndexOf (l : List Uri) (u : Uri) : Int :=
  match l.findIdx? (fun v => v == u) with
  | some i => (i : Int)
  | none => -1

/-- The comparator passed to `tabsToMove.sort` by `closeSplitTabsCmd`:
tabs whose inputs lack a uri compare equal to everything; otherwise compare
the uris' indices in the recorded initial order, with unrecorded uris
(`indexOf` = -1) sorting after all recorded ones. -/
def closeSortCmp (initialOrder : List Uri) (a b : Tab) : Int :=
  match a.input.uriProp, b.input.uriProp with
  | some aUri, some bUri =>
    let aIdx := jsIndexOf initialOrder aUri
    let bIdx := jsIndexOf initialOrder bUri
    if aIdx = -1 ∧ bIdx = -1 then 0
    else if aIdx = -1 then 1
    else if bIdx = -1 then -1
    else aIdx - bIdx
  | _, _ => 0

/-- The non-positive-comparator relation induced by `closeSortCmp`. -/
def closeSortLe (initialOrder : List Uri) (a b : Tab) : Bool :=
  decide (closeSortCmp initialOrder a b ≤ 0)

/-- Insert `t` into an already-sorted list, after every element that is
`le`-below-or-equal to it.  Inserting each element of a list in turn with
this function is a stable sort, the behaviour ECMAScript 2019 guarantees for
`Array.prototype.sort` under a consistent comparator (for which the stable
sorted result is unique, so the choice of stable algorithm is immaterial). -/
def stableInsert (le : Tab → Tab → Bool) (t : Tab) : List Tab → List Tab
  | [] => [t]
  | x :: xs => if le x t then x :: stableInsert le t xs else t :: x :: xs

/-- `Array.prototype.sort(cmp)` modelled as a stable insertion sort. -/
def jsStableSort (le : Tab → Tab → Bool) (l : List Tab) : List Tab :=
  l.foldl (fun acc t => stableInsert le t acc) []

/-- The sort key realised by `closeSortCmp` on uri-bearing tabs: the uri's
index in the recorded order, with unrecorded uris (and uri-less inputs)
keyed past the end of the list. -/
def keyOf (initialOrder : List Uri) (t : Tab) : Nat :=
  match t.input.uriProp with
  | some u =>
    match initialOrder.findIdx? (fun v => v == u) with
    | some i => i
    | none => initialOrder.length
  | none => initialOrder.length

/-- Whether a tab's uri appears in the recorded initial order. -/
def tabRecorded (initialOrder : List Uri) (t : Tab) : Bool :=
  match t.input.uriProp with
  | some u => initialOrder.contains u
  | none => false

/-- Keep the first tab for each distinct input, dropping later duplicates:
what merging every group into one does to documents shown in several
columns. -/
def dedupByInputAux (seen : List TabInput) : List Tab → List Tab
  | [] => []
  | t :: ts =>
    if t.input ∈ seen then dedupByInputAux seen ts
    else t :: dedupByInputAux (t.input :: seen) ts

/-- `workbench.action.editorLayoutSingle`: merge every group's tabs, in
column order, into the single column-One group (one tab per document). -/
def editorLayoutSingle (w : Window) : Window :=
  { groups := [{ viewColumn := 1, tabs := dedupByInputAux [] (w.groups.flatMap (fun g => g.tabs)) }],
    active := w.active.map (fun p => (p.1, 1)),
    activeGroupCol := 1 }

/-- One replay step of `closeSplitTabsCmd` on the primary group's tab list:
find the tab whose input passes `isTextTabInput` with the given uri; when
present, reveal it (making it active) and run `moveActiveEditor { to:
"first" }`, which moves it to the front of the column. -/
def moveTabToFront (tabs : List Tab) (u : Uri) : List Tab :=
  match tabs.find? (fun t => t.input.uriProp == some u) with
  | some t => t :: tabs.erase t
  | none => tabs

/-- The order-restoring replay of `closeSplitTabsCmd`: walk the recorded
initial order in reverse (index `initialOrder.length - 1` down to `0`) and
move each recorded uri's tab, when present, to the front of the column. -/
def replayInitialOrder (initialOrder : List Uri) (tabs : List Tab) : List Tab :=
  initialOrder.foldr (fun u acc => moveTabToFront acc u) tabs

/-- The replay applied to the window: it rewrites the column-One group's tab
order (focus moves done while replaying only determine which editor ends up
focused, which no later step reads; the model leaves `active` untouched). -/
def closeReplay (initialOrder : List Uri) (w : Window) : Window :=
  { w with groups := w.groups.map (fun g =>
      if g.viewColumn = 1 then { g with tabs := replayInitialOrder initialOrder g.tabs } else g) }

/-- `closeSplitTabsCmd` (full revision): close tracked tabs outside column
One, clear `splitTabUris`, move the remaining non-primary text tabs —
sorted by their index in the recorded initial order — into column One,
collapse the layout to a single column, replay the recorded order, and
clear the recorded order. -/
def closeSplitTabsCmd (s : ExtState) : ExtState :=
  let w1 := closeSplitPass s.splitTabUris s.window
  let activeUri := w1.active.map (fun p => p.1)
  let tabsToMove := collectTabsToMove w1 activeUri
  let sorted := jsStableSort (closeSortLe s.workspaceInitialOrder) tabsToMove
  let w2 := sorted.foldl
    (fun w t =>
      match t.input.uriProp with
      | some u => showTextDocumentIn w u 1 false
      | none => w) w1
  let w3 := editorLayoutSingle w2
  let w4 := closeReplay s.workspaceInitialOrder w3
  { s with window := w4, splitTabUris := [], workspaceInitialOrder := [] }

/-- The source's `t.label.trim() !== ""` test: the label contains at least
one non-whitespace character (stated over the label's character list so that
it evaluates by kernel reduction). -/
def labelNonBlank (label : String) : Bool :=
  label.data.any (fun c => !c.isWhitespace)

/-- `getAllLabeledTabs`: every tab, across all groups, whose label is a
non-empty, non-whitespace string. -/
def getAllLabeledTabs (w : Window) : List Tab :=
  w.groups.flatMap (fun g => g.tabs.filter (fun t => labelNonBlank t.label))

/-- `vscode.window.tabGroups.activeTabGroup`, located by its column. -/
def activeTabGroup (w : Window) : Option TabGroup :=
  w.groups.find? (fun g => g.viewColumn == w.activeGroupCol)

/-- The running state of the split / open-group loops: the window, the
`splitTabUris` tracking list, the dirty-document set, the `currentColumn`
counter, and the `(uri, column)` pairs shown so far (in call order). -/
structure LoopOut where
  window : Window
  splitTabUris : List Uri
  dirty : List Uri
  currentColumn : Nat
  opened : List (Uri × Nat)
  deriving DecidableEq, Repr

/-- The per-tab loop of `splitSelectedTabsCmd` (full revision).  For each
chosen tab whose input passes `isTextTabInput`: skip it when its uri equals
the active tab's uri; when its document is dirty, prompt — `Save` saves it
first, `Skip` proceeds unsaved, anything else abandons this tab; then
increment `currentColumn`, clamping at `ViewColumn.Nine` (9), show the
document there with `preserveFocus: true`, and push the uri onto
`splitTabUris`. -/
def splitLoop (choice : Uri → SaveChoice) (activeTabUri : Option Uri) :
    List Tab → LoopOut → LoopOut
  | [], st => st
  | tab :: rest, st =>
    match tab.input.uriProp with
    | none => splitLoop choice activeTabUri rest st
    | some docUri =>
      if some docUri = activeTabUri then
        splitLoop choice activeTabUri rest st
      else if st.dirty.contains docUri ∧ choice docUri = .dismiss then
        splitLoop choice activeTabUri rest st
      else
        let dirty2 :=
          if st.dirty.contains docUri ∧ choice docUri = .save then st.dirty.erase docUri
          else st.dirty
        let col := if st.currentColumn + 1 > 9 then 9 else st.currentColumn + 1
        splitLoop choice activeTabUri rest
          { window := showTextDocumentIn st.window docUri col true
            splitTabUris := st.splitTabUris ++ [docUri]
            dirty := dirty2
            currentColumn := col
            opened := st.opened ++ [(docUri, col)] }

/-- `splitSelectedTabsCmd` (full revision).  Capture the active tab's uri;
collect the labeled tabs (abort when none); snapshot the active group's
text-tab uri order into workspace state under `initialTabOrder`; show the
multi-select prompt (`picked` is the list of chosen labels, `none` when
dismissed); resolve the chosen tabs by label; and run the split loop
starting one past the active editor's column (column One when there is no
active editor). -/
def splitSelectedTabsCmd (picked : Option (List String)) (choice : Uri → SaveChoice)
    (s : ExtState) : ExtState :=
  let activeTabUri := s.window.active.map (fun p => p.1)
  let allTabs := getAllLabeledTabs s.window
  if allTabs.isEmpty then s
  else
    let s1 :=
      match activeTabGroup s.window with
      | some mainGroup =>
        { s with workspaceInitialOrder :=
            ((mainGroup.tabs.filter (fun t => isTextTabInput t.input)).filterMap
              (fun t => t.input.uriProp)) }
      | none => s
    match picked with
    | none => s1
    | some labels =>
      if labels.isEmpty then s1
      else
        let chosenTabs := allTabs.filter (fun t => labels.contains t.label)
        if chosenTabs.isEmpty then s1
        else
          let start := match s.window.active with | some (_, c) => c | none => 1
          let out := splitLoop choice activeTabUri chosenTabs
            { window := s1.window, splitTabUris := s1.splitTabUris, dirty := s1.dirty,
              currentColumn := start, opened := [] }
          { s1 with window := out.window, splitTabUris := out.splitTabUris, dirty := out.dirty }

/-- Replace (in place) the uris of the first stored group carrying the given
name — the effect of `duplicate.uris = uris` on the loaded collection. -/
def updateFirstGroup : List SplitTabGroup → String → List Uri → List SplitTabGroup
  | [], _, _ => []
  | g :: gs, n, us =>
    if g.name = n then { g with uris := us } :: gs else g :: updateFirstGroup gs n us

/-- `createSplitTabGroupCmd`.  Collect labeled tabs (abort when none); let
the user pick labels and a group name (an empty or dismissed name aborts);
build the uris from the chosen tabs that pass `isTextTabInput`; when a group
of that name already exists, prompt for overwrite — anything but `"Yes"`
returns without touching the store, `"Yes"` replaces that group's uris;
otherwise append a new group; persist the collection. -/
def createSplitTabGroupCmd (picked : Option (List String)) (groupName : Option String)
    (overwrite : ConfirmChoice) (s : ExtState) : ExtState :=
  let allTabs := getAllLabeledTabs s.window
  if allTabs.isEmpty then s
  else
    match picked with
    | none => s
    | some labels =>
      if labels.isEmpty then s
      else
        let chosenTabs := allTabs.filter (fun t => labels.contains t.label)
        if chosenTabs.isEmpty then s
        else
          match groupName with
          | none => s
          | some name =>
            if name = "" then s
            else
              let uris := (chosenTabs.filter (fun t => isTextTabInput t.input)).filterMap
                (fun t => t.input.uriProp)
              if s.splitTabGroups.any (fun g => g.name == name) then
                match overwrite with
                | .yes => { s with splitTabGroups := updateFirstGroup s.splitTabGroups name uris }
                | _ => s
              else
                { s with splitTabGroups := s.splitTabGroups ++ [{ name := name, uris := uris }] }

/-- The per-uri loop of `openSplitTabGroupCmd`: for each stored uri string
(`vscode.Uri.parse` followed by `toString` is modelled as the identity),
run the same save-prompt / increment-and-clamp / show procedure as the
split loop — but with no active-tab skip and no update of `splitTabUris`. -/
def openLoop (choice : Uri → SaveChoice) : List Uri → LoopOut → LoopOut
  | [], st => st
  | uriString :: rest, st =>
    if st.dirty.contains uriString ∧ choice uriString = .dismiss then
      openLoop choice rest st
    else
      let dirty2 :=
        if st.dirty.contains uriString ∧ choice uriString = .save then st.dirty.erase uriString
        else st.dirty
      let col := if st.currentColumn + 1 > 9 then 9 else st.currentColumn + 1
      openLoop choice rest
        { window := showTextDocumentIn st.window uriString col true
          splitTabUris := st.splitTabUris
          dirty := dirty2
          currentColumn := col
          opened := st.opened ++ [(uriString, col)] }

/-- `openSplitTabGroupCmd`.  Abort when no groups are stored or no name is
picked; look the chosen group up (an unknown name is reported and aborts);
then open its stored uris in order, starting one past the active editor's
column. -/
def openSplitTabGroupCmd (pickedName : Option String) (choice : Uri → SaveChoice)
    (s : ExtState) : ExtState :=
  if s.splitTabGroups.isEmpty then s
  else
    match pickedName with
    | none => s
    | some name =>
      match s.splitTabGroups.find? (fun g => g.name == name) with
      | none => s
      | some chosenGroup =>
        let start := match s.window.active with | some (_, c) => c | none => 1
        let out := openLoop choice chosenGroup.uris
          { window := s.window, splitTabUris := s.splitTabUris, dirty := s.dirty,
            currentColumn := start, opened := [] }
        { s with window := out.window, splitTabUris := out.splitTabUris, dirty := out.dirty }

/-- Which uri (if any) the split loop opens for a given chosen tab: the tab's
input must carry a uri, the uri must differ from the active tab's, and a
dirty document must not have its save prompt dismissed. -/
def splitOpens (choice : Uri → SaveChoice) (activeTabUri : Option Uri) (dirty : List Uri)
    (t : Tab) : Option Uri :=
  match t.input.uriProp with
  | some u =>
    if some u ≠ activeTabUri ∧ (dirty.contains u = true → choice u ≠ SaveChoice.dismiss)
    then some u else none
  | none => none

/-- The key relation used for sortedness reasoning. -/
def keyLe (initialOrder : List Uri) (a b : Tab) : Prop :=
  keyOf initialOrder a ≤ keyOf initialOrder b

/-! ### Helper lemmas -/

/-- The open-group loop never touches the `splitTabUris` tracking list. -/
theorem openLoop_splitTabUris (choice : Uri → SaveChoice) :
    ∀ (uris : List Uri) (st : LoopOut),
      (openLoop choice uris st).splitTabUris = st.splitTabUris := by
  intro uris
  induction uris with
  | nil => intro st; rfl
  | cons u rest ih =>
    intro st
    unfold openLoop
    split
    · exact ih st
    · exact ih _

/-- The increment-and-clamp step written with `min`. -/
theorem clampStep_eq_min (c : Nat) : (if c + 1 > 9 then 9 else c + 1) = min (c + 1) 9 := by
  split <;> omega

/-- Column bookkeeping of the split loop: starting from a state whose
`opened` trace satisfies the clamped-column formula relative to a base
column, the loop maintains it. -/
theorem splitLoop_opened_columns (choice : Uri → SaveChoice) (activeTabUri : Option Uri)
    (c0 : Nat) :
    ∀ (chosen : List Tab) (st : LoopOut),
      st.currentColumn = (if st.opened.length = 0 then c0 else min (c0 + st.opened.length) 9) →
      (∀ (k : Nat) (p : Uri × Nat), st.opened[k]? = some p → p.2 = min (c0 + (k + 1)) 9) →
      ∀ (k : Nat) (p : Uri × Nat),
        (splitLoop choice activeTabUri chosen st).opened[k]? = some p →
          p.2 = min (c0 + (k + 1)) 9 := by
  intro chosen
  induction chosen with
  | nil => intro st hc hop k p hk; exact hop k p hk
  | cons tab rest ih =>
    intro st hc hop
    rcases htab : tab.input.uriProp with _ | docUri
    · simp only [splitLoop, htab]
      exact ih st hc hop
    · simp only [splitLoop, htab]
      split
      · exact ih st hc hop
      · split
        · exact ih st hc hop
        · apply ih
          · simp only [List.length_append, List.length_cons, List.length_nil]
            rw [clampStep_eq_min, hc]
            by_cases hn : st.opened.length = 0 <;> simp [hn] <;> omega
          · intro k p hk
            rw [List.getElem?_append] at hk
            split at hk
            · exact hop k p hk
            · next hnlt =>
              rcases hkn : k - st.opened.length with _ | m
              · rw [hkn] at hk
                simp only [List.getElem?_cons_zero, Option.some.injEq] at hk
                have hkeq : k = st.opened.length := by omega
                rw [← hk]
                simp only [clampStep_eq_min, hc, hkeq]
                by_cases hn : st.opened.length = 0 <;> simp [hn] <;> omega
              · rw [hkn] at hk
                simp at hk

/-- Column bookkeeping of the open-group loop, as for the split loop. -/
theorem openLoop_opened_columns (choice : Uri → SaveChoice) (c0 : Nat) :
    ∀ (uris : List Uri) (st : LoopOut),
      st.currentColumn = (if st.opened.length = 0 then c0 else min (c0 + st.opened.length) 9) →
      (∀ (k : Nat) (p : Uri × Nat), st.opened[k]? = some p → p.2 = min (c0 + (k + 1)) 9) →
      ∀ (k : Nat) (p : Uri × Nat),
        (openLoop choice uris st).opened[k]? = some p → p.2 = min (c0 + (k + 1)) 9 := by
  intro uris
  induction uris with
  | nil => intro st hc hop k p hk; exact hop k p hk
  | cons u rest ih =>
    intro st hc hop
    unfold openLoop
    split
    · exact ih st hc hop
    · apply ih
      · simp only [List.length_append, List.length_cons, List.length_nil]
        rw [clampStep_eq_min, hc]
        by_cases hn : st.opened.length = 0 <;> simp [hn] <;> omega
      · intro k p hk
        rw [List.getElem?_append] at hk
        split at hk
        · exact hop k p hk
        · next hnlt =>
          rcases hkn : k - st.opened.length with _ | m
          · rw [hkn] at hk
            simp only [List.getElem?_cons_zero, Option.some.injEq] at hk
            have hkeq : k = st.opened.length := by omega
            rw [← hk]
            simp only [clampStep_eq_min, hc, hkeq]
            by_cases hn : st.opened.length = 0 <;> simp [hn] <;> omega
          · rw [hkn] at hk
            simp at hk

/-- Erasing a different uri from the dirty set does not change membership. -/
theorem contains_erase_ne (l : List Uri) (u v : Uri) (h : v ≠ u) :
    (l.erase u).contains v = l.contains v := by
  by_cases hm : v ∈ l
  · have h1 : (l.erase u).contains v = true :=
      List.elem_iff.mpr ((List.mem_erase_of_ne h).mpr hm)
    have h2 : l.contains v = true := List.elem_iff.mpr hm
    rw [h1, h2]
  · have h1 : (l.erase u).contains v = false := by
      rcases hb : (l.erase u).contains v with _ | _
      · rfl
      · exact absurd (List.mem_of_mem_erase (List.elem_iff.mp hb)) hm
    have h2 : l.contains v = false := by
      rcases hb : l.contains v with _ | _
      · rfl
      · exact absurd (List.elem_iff.mp hb) hm
    rw [h1, h2]

/-- Saving one document (erasing its uri from the dirty set) does not change
which uris the split loop opens for the remaining tabs. -/
theorem splitOpens_erase_saved (choice : Uri → SaveChoice) (act : Option Uri)
    (dirty : List Uri) (docUri : Uri) (hsave : choice docUri = SaveChoice.save) (t : Tab) :
    splitOpens choice act (dirty.erase docUri) t = splitOpens choice act dirty t := by
  unfold splitOpens
  rcases h : t.input.uriProp with _ | v
  · rfl
  · dsimp only
    by_cases hv : v = docUri
    · subst hv
      refine if_congr (and_congr_right fun _ => ?_) rfl rfl
      constructor
      · intro _ _
        rw [hsave]
        intro hcon
        cases hcon
      · intro _ _
        rw [hsave]
        intro hcon
        cases hcon
    · rw [contains_erase_ne dirty docUri v hv]

/-- The uris the split loop shows, in order: one per chosen tab that
`splitOpens` accepts. -/
theorem splitLoop_opened_uris (choice : Uri → SaveChoice) (act : Option Uri) :
    ∀ (chosen : List Tab) (st : LoopOut),
      (splitLoop choice act chosen st).opened.map Prod.fst
        = st.opened.map Prod.fst ++ chosen.filterMap (splitOpens choice act st.dirty) := by
  intro chosen
  induction chosen with
  | nil => intro st; simp [splitLoop]
  | cons tab rest ih =>
    intro st
    rcases htab : tab.input.uriProp with _ | docUri
    · rw [List.filterMap_cons]
      simp only [splitLoop, htab, splitOpens]
      exact ih st
    · by_cases hac : some docUri = act
      · rw [List.filterMap_cons]
        simp only [splitLoop, htab, splitOpens, if_pos hac]
        rw [if_neg (fun hcond => hcond.1 hac)]
        exact ih st
      · by_cases hdd : st.dirty.contains docUri = true ∧ choice docUri = SaveChoice.dismiss
        · rw [List.filterMap_cons]
          simp only [splitLoop, htab, splitOpens, if_neg hac]
          rw [if_pos hdd, if_neg (fun hcond => (hcond.2 hdd.1) hdd.2)]
          exact ih st
        · rw [List.filterMap_cons]
          simp only [splitLoop, htab, splitOpens, if_neg hac, if_neg hdd]
          rw [ih _]
          have hcond : some docUri ≠ act ∧
              (st.dirty.contains docUri = true → choice docUri ≠ SaveChoice.dismiss) :=
            ⟨hac, fun hdirty hdm => hdd ⟨hdirty, hdm⟩⟩
          rw [if_pos hcond]
          dsimp only
          simp only [List.map_append, List.map_cons, List.map_nil, List.append_assoc,
            List.singleton_append]
          congr 2
          split
          · next hsave =>
            exact List.filterMap_congr fun x _ =>
              splitOpens_erase_saved choice act st.dirty docUri hsave.2 x
          · rfl

/-- Filtering by a stronger predicate commutes with `find?`. -/
theorem find?_filter_of_imp {α : Type} (l : List α) (p q : α → Bool)
    (h : ∀ x, p x = true → q x = true) : (l.filter q).find? p = l.find? p := by
  induction l with
  | nil => rfl
  | cons x xs ih =>
    rcases hq : q x with _ | _
    · rw [List.filter_cons_of_neg (by rw [hq]; exact Bool.false_ne_true)]
      rw [ih]
      rcases hp : p x with _ | _
      · rw [List.find?_cons_of_neg _ (by rw [hp]; exact Bool.false_ne_true)]
      · exact absurd (h x hp) (by rw [hq]; exact Bool.false_ne_true)
    · rw [List.filter_cons_of_pos hq]
      rcases hp : p x with _ | _
      · rw [List.find?_cons_of_neg _ (by rw [hp]; exact Bool.false_ne_true),
          List.find?_cons_of_neg _ (by rw [hp]; exact Bool.false_ne_true)]
        exact ih
      · rw [List.find?_cons_of_pos _ hp, List.find?_cons_of_pos _ hp]

/-- In a tab list whose uri trace has no duplicates, at most one tab
position carries any given uri. -/
theorem filter_uri_length_le_one (tabs : List Tab)
    (h : (tabs.filterMap (fun t => t.input.uriProp)).Nodup) (u : Uri) :
    (tabs.filter (fun t => t.input.uriProp == some u)).length ≤ 1 := by
  induction tabs with
  | nil => simp
  | cons t rest ih =>
    rcases ht : t.input.uriProp with _ | v
    · rw [List.filter_cons_of_neg (by rw [ht]; simp)]
      rw [List.filterMap_cons, ht] at h
      exact ih h
    · rw [List.filterMap_cons, ht] at h
      have hv := List.nodup_cons.mp h
      by_cases hvu : v = u
      · subst hvu
        rw [List.filter_cons_of_pos (by rw [ht]; simp)]
        have hnil : rest.filter (fun t => t.input.uriProp == some v) = [] := by
          rw [List.filter_eq_nil_iff]
          intro x hx hxp
          have hxv : x.input.uriProp = some v := by simpa using hxp
          exact hv.1 (List.mem_filterMap.mpr ⟨x, hx, hxv⟩)
        rw [hnil]
        simp
      · rw [List.filter_cons_of_neg (by rw [ht]; simp [hvu])]
        exact ih hv.2

/-- Erasing the unique tab carrying a uri is the same as filtering that uri
out. -/
theorem erase_unique_filter (l : List Tab) (u : Uri) (t : Tab)
    (hmem : t ∈ l) (ht : t.input.uriProp = some u)
    (hlen : (l.filter (fun x => x.input.uriProp == some u)).length ≤ 1) :
    l.erase t = l.filter (fun x => !(x.input.uriProp == some u)) := by
  induction l with
  | nil => cases hmem
  | cons x xs ih =>
    by_cases hx : x = t
    · subst hx
      rw [List.erase_cons_head]
      rw [List.filter_cons_of_pos (by rw [ht]; simp)] at hlen
      have hnil : xs.filter (fun x => x.input.uriProp == some u) = [] := by
        rcases hfx : xs.filter (fun x => x.input.uriProp == some u) with _ | ⟨y, ys⟩
        · exact hfx
        · rw [hfx] at hlen
          simp at hlen
      rw [List.filter_cons_of_neg (by rw [ht]; simp)]
      rw [List.filter_eq_self.mpr]
      intro a ha
      have := List.filter_eq_nil_iff.mp hnil a ha
      simpa using this
    · have hxt : ¬(x == t) = true := by simpa using hx
      rw [List.erase_cons_tail hxt]
      have hmem' : t ∈ xs := by
        rcases List.mem_cons.mp hmem with h | h
        · exact absurd h.symm hx
        · exact h
      have hxany : ¬(x.input.uriProp == some u) = true := by
        intro hxp
        have hxu : x.input.uriProp = some u := by simpa using hxp
        rw [List.filter_cons_of_pos (by rw [hxu]; simp)] at hlen
        have htin : t ∈ xs.filter (fun x => x.input.uriProp == some u) :=
          List.mem_filter.mpr ⟨hmem', by rw [ht]; simp⟩
        rcases hfx : xs.filter (fun x => x.input.uriProp == some u) with _ | ⟨y, ys⟩
        · rw [hfx] at htin; cases htin
        · rw [hfx] at hlen; simp at hlen
      have hxpos : (!(x.input.uriProp == some u)) = true := by
        rcases hb : (x.input.uriProp == some u) with _ | _
        · rfl
        · exact absurd hb hxany
      have hstep : (x :: xs).filter (fun x => !(x.input.uriProp == some u))
          = x :: xs.filter (fun x => !(x.input.uriProp == some u)) :=
        List.filter_cons_of_pos hxpos
      rw [hstep]
      have hstep2 : (x :: xs).filter (fun x => x.input.uriProp == some u)
          = xs.filter (fun x => x.input.uriProp == some u) :=
        List.filter_cons_of_neg hxany
      rw [hstep2] at hlen
      rw [ih hmem' hlen]

/-- The order-restoration equation for the replay of `closeSplitTabsCmd`:
for a duplicate-free recorded order and a tab population with duplicate-free
uris, replaying leaves the recorded-and-present tabs at the front of the
column in exactly the recorded relative order, followed by the tabs whose
uris are unrecorded (or uri-less), in their prior relative order. -/
theorem replay_core (tabs : List Tab)
    (hT : (tabs.filterMap (fun t => t.input.uriProp)).Nodup) :
    ∀ (order : List Uri), order.Nodup →
      replayInitialOrder order tabs
        = order.filterMap (fun u => tabs.find? (fun t => t.input.uriProp == some u))
          ++ tabs.filter (fun t =>
              match t.input.uriProp with
              | some u => !(order.contains u)
              | none => true) := by
  intro order
  induction order with
  | nil =>
    intro _
    rw [List.filterMap_nil, List.nil_append]
    rw [List.filter_eq_self.mpr]
    · rfl
    · intro t _
      rcases h : t.input.uriProp with _ | v <;> simp
  | cons u ord ih =>
    intro hNod
    have hu : u ∉ ord := (List.nodup_cons.mp hNod).1
    have hord : ord.Nodup := (List.nodup_cons.mp hNod).2
    have hcontains : ord.contains u = false := by simpa using hu
    show moveTabToFront (replayInitialOrder ord tabs) u = _
    rw [ih hord]
    have hAmem : ∀ x ∈ ord.filterMap
        (fun u => tabs.find? (fun t => t.input.uriProp == some u)),
        x ∈ tabs ∧ ∃ v ∈ ord, x.input.uriProp = some v := by
      intro x hx
      rcases List.mem_filterMap.mp hx with ⟨v, hv, hfind⟩
      refine ⟨List.mem_of_find?_eq_some hfind, v, hv, ?_⟩
      simpa using List.find?_some hfind
    rcases hfind : tabs.find? (fun t => t.input.uriProp == some u) with _ | t
    · -- the uri is not present in the column: the step is a no-op
      have hnone : (ord.filterMap (fun u => tabs.find? (fun t => t.input.uriProp == some u))
          ++ tabs.filter (fun t =>
              match t.input.uriProp with
              | some u => !(ord.contains u)
              | none => true)).find? (fun t => t.input.uriProp == some u) = none := by
        rw [List.find?_eq_none]
        intro x hx
        rcases List.mem_append.mp hx with hxa | hxr
        · exact List.find?_eq_none.mp hfind x (hAmem x hxa).1
        · exact List.find?_eq_none.mp hfind x (List.mem_filter.mp hxr).1
      rw [moveTabToFront, hnone, List.filterMap_cons, hfind]
      dsimp only
      congr 1
      refine List.filter_congr fun x hx => ?_
      rcases hxu : x.input.uriProp with _ | v
      · simp only [hxu]
      · have hvu : (v == u) = false := by
          rcases hb : (v == u) with _ | _
          · rfl
          · have hxup : x.input.uriProp = some u := by
              rw [hxu]
              have : v = u := by simpa using hb
              rw [this]
            exact absurd (List.find?_eq_none.mp hfind x hx) (by rw [hxup]; simp)
        simp only [hxu, List.contains_cons, hvu, Bool.false_or]
    · -- the uri is present: its unique tab moves to the front
      have htmem : t ∈ tabs := List.mem_of_find?_eq_some hfind
      have htu : t.input.uriProp = some u := by simpa using List.find?_some hfind
      have hAnone : (ord.filterMap
          (fun u => tabs.find? (fun t => t.input.uriProp == some u))).find?
            (fun x => x.input.uriProp == some u) = none := by
        rw [List.find?_eq_none]
        intro x hx
        rcases (hAmem x hx).2 with ⟨v, hv, hxv⟩
        rw [hxv]
        simp only [Option.some.injEq, beq_iff_eq]
        intro hvu
        exact hu (hvu ▸ hv)
      have hRfind : (tabs.filter (fun t =>
          match t.input.uriProp with
          | some u => !(ord.contains u)
          | none => true)).find? (fun x => x.input.uriProp == some u) = some t := by
        rw [find?_filter_of_imp]
        · exact hfind
        · intro x hxp
          have hxu : x.input.uriProp = some u := by simpa using hxp
          rw [hxu]
          dsimp only
          rw [hcontains]
          rfl
      have hfound : (ord.filterMap (fun u => tabs.find? (fun t => t.input.uriProp == some u))
          ++ tabs.filter (fun t =>
              match t.input.uriProp with
              | some u => !(ord.contains u)
              | none => true)).find? (fun t => t.input.uriProp == some u) = some t := by
        rw [List.find?_append, hAnone, hRfind]
        rfl
      rw [moveTabToFront, hfound]
      dsimp only
      have htA : t ∉ ord.filterMap
          (fun u => tabs.find? (fun t => t.input.uriProp == some u)) := by
        intro htin
        rcases (hAmem t htin).2 with ⟨v, hv, htv⟩
        rw [htu] at htv
        cases htv
        exact hu hv
      rw [List.erase_append_right _ htA]
      have htR : t ∈ tabs.filter (fun t =>
          match t.input.uriProp with
          | some u => !(ord.contains u)
          | none => true) := by
        refine List.mem_filter.mpr ⟨htmem, ?_⟩
        rw [htu]
        dsimp only
        rw [hcontains]
        rfl
      have hRlen : ((tabs.filter (fun t =>
          match t.input.uriProp with
          | some u => !(ord.contains u)
          | none => true)).filter (fun x => x.input.uriProp == some u)).length ≤ 1 := by
        refine le_trans (List.Sublist.length_le ?_) (filter_uri_length_le_one tabs hT u)
        exact List.Sublist.filter _ (List.filter_sublist tabs)
      rw [erase_unique_filter _ u t htR htu hRlen]
      rw [List.filterMap_cons, hfind]
      dsimp only
      rw [List.cons_append]
      congr 1
      congr 1
      rw [List.filter_filter]
      refine List.filter_congr fun x _ => ?_
      rcases hxu : x.input.uriProp with _ | v
      · simp [hxu]
      · simp only [hxu, List.contains_cons]
        have hss : (some v == some u) = (v == u) := rfl
        rw [hss]
        rcases hb : (v == u) with _ | _ <;> rcases hc : ord.contains v with _ | _ <;>
          simp only [hb, hc, Bool.false_or, Bool.true_or, Bool.and_true, Bool.and_false,
            Bool.not_false, Bool.not_true, Bool.true_and, Bool.false_and]

/-- Inserting into a sorted prefix yields a permutation of consing. -/
theorem stableInsert_perm (le : Tab → Tab → Bool) (t : Tab) :
    ∀ (l : List Tab), (stableInsert le t l).Perm (t :: l) := by
  intro l
  induction l with
  | nil => exact List.Perm.refl _
  | cons x xs ih =>
    unfold stableInsert
    split
    · exact (List.Perm.cons x ih).trans (List.Perm.swap t x xs)
    · exact List.Perm.refl _

/-- The stable sort permutes its input. -/
theorem jsStableSort_perm (le : Tab → Tab → Bool) (l : List Tab) :
    (jsStableSort le l).Perm l := by
  have key : ∀ (l acc : List Tab),
      (l.foldl (fun acc t => stableInsert le t acc) acc).Perm (acc ++ l) := by
    intro l
    induction l with
    | nil => intro acc; simp
    | cons t rest ih =>
      intro acc
      have h1 := ih (stableInsert le t acc)
      have h2 : (stableInsert le t acc ++ rest).Perm ((t :: acc) ++ rest) :=
        List.Perm.append_right rest (stableInsert_perm le t acc)
      have h3 : ((t :: acc) ++ rest).Perm (acc ++ t :: rest) := by
        simpa using List.perm_middle.symm
      exact (h1.trans h2).trans h3
  simpa using key l []

/-- On uri-bearing tabs, the comparator relation is exactly key comparison:
the uri's index in the recorded order, with unrecorded uris keyed past the
end. -/
theorem closeSortLe_eq_key (initialOrder : List Uri) (a b : Tab)
    (ha : (a.input.uriProp).isSome = true) (hb : (b.input.uriProp).isSome = true) :
    (closeSortLe initialOrder a b = true ↔
      keyOf initialOrder a ≤ keyOf initialOrder b) := by
  rcases hua : a.input.uriProp with _ | ua
  · rw [hua] at ha; cases ha
  rcases hub : b.input.uriProp with _ | ub
  · rw [hub] at hb; cases hb
  unfold closeSortLe closeSortCmp keyOf jsIndexOf
  rw [hua, hub]
  dsimp only
  rcases hfa : initialOrder.findIdx? (fun v => v == ua) with _ | i
  · rcases hfb : initialOrder.findIdx? (fun v => v == ub) with _ | j
    · simp only [decide_eq_true_eq]
      split_ifs <;> first | omega | simp_all
    · have hj : j < initialOrder.length :=
        (List.findIdx?_eq_some_iff_findIdx_eq.mp hfb).1
      simp only [decide_eq_true_eq]
      split_ifs <;> first | omega | simp_all
  · have hi : i < initialOrder.length :=
      (List.findIdx?_eq_some_iff_findIdx_eq.mp hfa).1
    rcases hfb : initialOrder.findIdx? (fun v => v == ub) with _ | j
    · simp only [decide_eq_true_eq]
      split_ifs <;> first | omega | simp_all
    · have hj : j < initialOrder.length :=
        (List.findIdx?_eq_some_iff_findIdx_eq.mp hfb).1
      simp only [decide_eq_true_eq]
      split_ifs <;> first | omega | simp_all

/-- Inserting a uri-bearing tab into a key-sorted list of uri-bearing tabs
keeps the list key-sorted. -/
theorem stableInsert_pairwise (initialOrder : List Uri) (t : Tab)
    (ht : (t.input.uriProp).isSome = true) :
    ∀ (l : List Tab), (∀ x ∈ l, (x.input.uriProp).isSome = true) →
      l.Pairwise (keyLe initialOrder) →
      (stableInsert (closeSortLe initialOrder) t l).Pairwise (keyLe initialOrder) := by
  intro l
  induction l with
  | nil =>
    intro _ _
    exact List.pairwise_cons.mpr ⟨by simp, List.Pairwise.nil⟩
  | cons x xs ih =>
    intro hall hp
    have hx : (x.input.uriProp).isSome = true := hall x (List.mem_cons_self x xs)
    have hxs : ∀ y ∈ xs, (y.input.uriProp).isSome = true :=
      fun y hy => hall y (List.mem_cons_of_mem x hy)
    rcases List.pairwise_cons.mp hp with ⟨hxrel, hp'⟩
    unfold stableInsert
    split
    · next hle =>
      refine List.pairwise_cons.mpr ⟨?_, ih hxs hp'⟩
      intro y hy
      rcases List.mem_cons.mp
          ((stableInsert_perm (closeSortLe initialOrder) t xs).mem_iff.mp hy) with
        hyt | hyxs
      · rw [hyt]
        exact (closeSortLe_eq_key initialOrder x t hx ht).mp hle
      · exact hxrel y hyxs
    · next hle =>
      have hxt : keyLe initialOrder t x := by
        unfold keyLe
        have := (closeSortLe_eq_key initialOrder x t hx ht)
        rcases hb : closeSortLe initialOrder x t with _ | _
        · have : ¬ (keyOf initialOrder x ≤ keyOf initialOrder t) := by
            intro hk
            rw [this.mpr hk] at hb
            cases hb
          omega
        · exact absurd hb (by simpa using hle)
      refine List.pairwise_cons.mpr ⟨?_, hp⟩
      intro y hy
      rcases List.mem_cons.mp hy with hyx | hyxs
      · rw [hyx]
        exact hxt
      · exact le_trans hxt (hxrel y hyxs)

/-- The stable sort of uri-bearing tabs is key-sorted. -/
theorem jsStableSort_pairwise (initialOrder : List Uri) (l : List Tab)
    (hall : ∀ x ∈ l, (x.input.uriProp).isSome = true) :
    (jsStableSort (closeSortLe initialOrder) l).Pairwise (keyLe initialOrder) := by
  have key : ∀ (l acc : List Tab), (∀ x ∈ l, (x.input.uriProp).isSome = true) →
      (∀ x ∈ acc, (x.input.uriProp).isSome = true) →
      acc.Pairwise (keyLe initialOrder) →
      (l.foldl (fun acc t => stableInsert (closeSortLe initialOrder) t acc) acc).Pairwise
        (keyLe initialOrder) := by
    intro l
    induction l with
    | nil => intro acc _ _ hacc; exact hacc
    | cons t rest ih =>
      intro acc hl hacc hp
      have ht : (t.input.uriProp).isSome = true := hl t (List.mem_cons_self t rest)
      have hrest : ∀ x ∈ rest, (x.input.uriProp).isSome = true :=
        fun x hx => hl x (List.mem_cons_of_mem t hx)
      refine ih _ hrest ?_ (stableInsert_pairwise initialOrder t ht acc hacc hp)
      intro x hx
      rcases List.mem_cons.mp
          ((stableInsert_perm (closeSortLe initialOrder) t acc).mem_iff.mp hx) with
        hxt | hxacc
      · rw [hxt]; exact ht
      · exact hacc x hxacc
  exact key l [] hall (by intro x hx; cases hx) List.Pairwise.nil

/-- Inserting a tab adds it after every tab of its own key class and leaves
each key class otherwise untouched. -/
theorem stableInsert_filter_key (initialOrder : List Uri) (t : Tab)
    (ht : (t.input.uriProp).isSome = true) (k : Nat) :
    ∀ (l : List Tab), (∀ x ∈ l, (x.input.uriProp).isSome = true) →
      l.Pairwise (keyLe initialOrder) →
      (stableInsert (closeSortLe initialOrder) t l).filter
          (fun x => keyOf initialOrder x == k)
        = (if keyOf initialOrder t = k
            then l.filter (fun x => keyOf initialOrder x == k) ++ [t]
            else l.filter (fun x => keyOf initialOrder x == k)) := by
  intro l
  induction l with
  | nil =>
    intro _ _
    unfold stableInsert
    rw [List.filter_cons]
    by_cases hk : keyOf initialOrder t = k
    · rw [if_pos (by simpa using hk), if_pos hk]
      rfl
    · rw [if_neg (by simpa using hk), if_neg hk]
  | cons x xs ih =>
    intro hall hp
    have hx : (x.input.uriProp).isSome = true := hall x (List.mem_cons_self x xs)
    have hxs : ∀ y ∈ xs, (y.input.uriProp).isSome = true :=
      fun y hy => hall y (List.mem_cons_of_mem x hy)
    rcases List.pairwise_cons.mp hp with ⟨hxrel, hp'⟩
    unfold stableInsert
    split
    · next hle =>
      rw [List.filter_cons, List.filter_cons]
      by_cases hxk : (keyOf initialOrder x == k) = true
      · rw [if_pos hxk, if_pos hxk, ih hxs hp']
        by_cases hk : keyOf initialOrder t = k
        · rw [if_pos hk, if_pos hk, List.cons_append]
        · rw [if_neg hk, if_neg hk]
      · rw [if_neg hxk, if_neg hxk, ih hxs hp']
    · next hle =>
      have hxt : keyOf initialOrder t < keyOf initialOrder x := by
        have hiff := closeSortLe_eq_key initialOrder x t hx ht
        rcases hb : closeSortLe initialOrder x t with _ | _
        · have : ¬ (keyOf initialOrder x ≤ keyOf initialOrder t) := by
            intro hkk
            rw [hiff.mpr hkk] at hb
            cases hb
          omega
        · exact absurd hb (by simpa using hle)
      rw [List.filter_cons]
      by_cases hk : keyOf initialOrder t = k
      · rw [if_pos (by simpa using hk), if_pos hk]
        have hnil : (x :: xs).filter (fun x => keyOf initialOrder x == k) = [] := by
          rw [List.filter_eq_nil_iff]
          intro y hy hyk
          have hyk' : keyOf initialOrder y = k := by simpa using hyk
          rcases List.mem_cons.mp hy with hyx | hyxs
          · rw [hyx] at hyk'
            omega
          · have := hxrel y hyxs
            unfold keyLe at this
            omega
        rw [hnil]
        rfl
      · rw [if_neg (by simpa using hk), if_neg hk]

/-- The stable sort preserves each key class in its original relative
order. -/
theorem jsStableSort_filter_key (initialOrder : List Uri) (l : List Tab)
    (hall : ∀ x ∈ l, (x.input.uriProp).isSome = true) (k : Nat) :
    (jsStableSort (closeSortLe initialOrder) l).filter
        (fun x => keyOf initialOrder x == k)
      = l.filter (fun x => keyOf initialOrder x == k) := by
  have key : ∀ (l acc : List Tab), (∀ x ∈ l, (x.input.uriProp).isSome = true) →
      (∀ x ∈ acc, (x.input.uriProp).isSome = true) →
      acc.Pairwise (keyLe initialOrder) →
      (l.foldl (fun acc t => stableInsert (closeSortLe initialOrder) t acc) acc).filter
          (fun x => keyOf initialOrder x == k)
        = acc.filter (fun x => keyOf initialOrder x == k)
          ++ l.filter (fun x => keyOf initialOrder x == k) := by
    intro l
    induction l with
    | nil => intro acc _ _ _; simp
    | cons t rest ih =>
      intro acc hl hacc hp
      have ht : (t.input.uriProp).isSome = true := hl t (List.mem_cons_self t rest)
      have hrest : ∀ x ∈ rest, (x.input.uriProp).isSome = true :=
        fun x hx => hl x (List.mem_cons_of_mem t hx)
      have hacc' : ∀ x ∈ stableInsert (closeSortLe initialOrder) t acc,
          (x.input.uriProp).isSome = true := by
        intro x hx
        rcases List.mem_cons.mp
            ((stableInsert_perm (closeSortLe initialOrder) t acc).mem_iff.mp hx) with
          hxt | hxacc
        · rw [hxt]; exact ht
        · exact hacc x hxacc
      rw [List.foldl_cons,
        ih _ hrest hacc' (stableInsert_pairwise initialOrder t ht acc hacc hp),
        stableInsert_filter_key initialOrder t ht k acc hacc hp, List.filter_cons]
      by_cases hk : keyOf initialOrder t = k
      · rw [if_pos hk, if_pos (by simpa using hk), List.append_assoc, List.singleton_append]
      · rw [if_neg hk, if_neg (by simpa using hk)]
  have h := key l [] hall (by intro x hx; cases hx) List.Pairwise.nil
  simpa using h

/-- For a uri-bearing tab, being recorded is the same as its key lying
strictly inside the recorded order. -/
theorem tabRecorded_iff_key_lt (initialOrder : List Uri) (t : Tab)
    (ht : (t.input.uriProp).isSome = true) :
    tabRecorded initialOrder t = true ↔ keyOf initialOrder t < initialOrder.length := by
  rcases hu : t.input.uriProp with _ | u
  · rw [hu] at ht; cases ht
  unfold tabRecorded keyOf
  rw [hu]
  dsimp only
  rcases hf : initialOrder.findIdx? (fun v => v == u) with _ | i
  · dsimp only
    constructor
    · intro hc
      have hmem : u ∈ initialOrder := List.elem_iff.mp hc
      have := List.findIdx?_eq_none_iff.mp hf u hmem
      simp at this
    · intro h
      omega
  · have hi : i < initialOrder.length :=
      (List.findIdx?_eq_some_iff_findIdx_eq.mp hf).1
    dsimp only
    constructor
    · intro _
      exact hi
    · intro _
      rcases hc : initialOrder.contains u with _ | _
      · have hnmem : u ∉ initialOrder := by
          intro hmem
          have hct : initialOrder.contains u = true := List.elem_iff.mpr hmem
          rw [hct] at hc
          cases hc
        have : initialOrder.findIdx? (fun v => v == u) = none := by
          rw [List.findIdx?_eq_none_iff]
          intro x hx
          rcases hb : (x == u) with _ | _
          · rfl
          · exact absurd ((by simpa using hb : x = u) ▸ hx) hnmem
        rw [this] at hf
        cases hf
      · rfl

/-- For a uri-bearing tab, being unrecorded is the same as carrying the
past-the-end key. -/
theorem not_recorded_eq_key_len (initialOrder : List Uri) (t : Tab)
    (ht : (t.input.uriProp).isSome = true) :
    (!(tabRecorded initialOrder t)) = (keyOf initialOrder t == initialOrder.length) := by
  have hle : keyOf initialOrder t ≤ initialOrder.length := by
    rcases hu : t.input.uriProp with _ | u
    · rw [hu] at ht; cases ht
    unfold keyOf
    rw [hu]
    dsimp only
    rcases hf : initialOrder.findIdx? (fun v => v == u) with _ | i
    · dsimp only
      omega
    · have := (List.findIdx?_eq_some_iff_findIdx_eq.mp hf).1
      dsimp only
      omega
  have hiff := tabRecorded_iff_key_lt initialOrder t ht
  rcases hr : tabRecorded initialOrder t with _ | _
  · have : ¬ keyOf initialOrder t < initialOrder.length := by
      intro hk
      rw [hiff.mpr hk] at hr
      cases hr
    have hkeq : keyOf initialOrder t = initialOrder.length := by omega
    rw [hkeq]
    simp
  · have hk := hiff.mp hr
    have : (keyOf initialOrder t == initialOrder.length) = false := by
      rcases hb : (keyOf initialOrder t == initialOrder.length) with _ | _
      · rfl
      · have : keyOf initialOrder t = initialOrder.length := by simpa using hb
        omega
    rw [this]
    rfl

/-- Net effect of reveal-then-close on the window: the first tab carrying
the uri is removed from the column's group (when the column exists). -/
theorem closeTabInGroup_groups (w : Window) (c : Nat) (u : Uri)
    (hc : w.groups.any (fun g => g.viewColumn == c) = true) :
    (closeTabInGroup w c u).groups
      = w.groups.map (fun g =>
          if g.viewColumn = c then
            { g with tabs := g.tabs.eraseP (fun t => t.input.uriProp == some u) }
          else g)
    ∧ (closeTabInGroup w c u).active = none := by
  have hshow : showTextDocumentIn w u c false
      = { w with
          groups := w.groups.map (fun g =>
            if g.viewColumn = c then
              if (findTabByUri g.tabs u).isSome then g
              else { g with tabs := g.tabs ++ [{ label := u, input := .text u }] }
            else g),
          active := some (u, c), activeGroupCol := c } := by
    unfold showTextDocumentIn
    rw [hc]
    exact rfl
  unfold closeTabInGroup
  rw [hshow]
  unfold closeActiveEditor
  dsimp only
  constructor
  · rw [List.map_map]
    refine List.map_congr_left fun g _ => ?_
    by_cases hgc : g.viewColumn = c
    · simp only [Function.comp_apply, if_pos hgc]
      rcases hf : (findTabByUri g.tabs u).isSome with _ | _
      · simp only [Bool.false_eq_true, if_false, if_pos hgc]
        have hnone : ∀ t ∈ g.tabs, ¬(t.input.uriProp == some u) = true := by
          intro t htm hpt
          have : findTabByUri g.tabs u = none := by
            rcases hv : findTabByUri g.tabs u with _ | v
            · rfl
            · rw [hv] at hf; cases hf
          exact absurd hpt (List.find?_eq_none.mp this t htm)
        rw [List.eraseP_append_right _ hnone]
        have : List.eraseP (fun (t : Tab) => t.input.uriProp == some u)
            ([{ label := u, input := TabInput.text u }] : List Tab) = [] := by
          rw [List.eraseP_cons_of_pos (by simp [TabInput.uriProp])]
        rw [this, List.append_nil, List.eraseP_of_forall_not hnone]
      · simp only [if_true, if_pos hgc]
    · simp only [Function.comp_apply, if_neg hgc]
  · rfl

/-- The mapped update in the closing-pass characterizations keeps every
group's column. -/
theorem map_update_columns (gs : List TabGroup) (f : TabGroup → List Tab) (c : Nat) :
    (gs.map (fun g => if g.viewColumn = c then { g with tabs := f g } else g)).map
        (fun g => g.viewColumn)
      = gs.map (fun g => g.viewColumn) := by
  rw [List.map_map]
  refine List.map_congr_left fun g _ => ?_
  by_cases hgc : g.viewColumn = c
  · simp [hgc]
  · simp [hgc]

/-- Erasing a tracked uri never removes an untracked head. -/
theorem eraseStep_cons_untracked (tracked : List Uri) (h : Tab) (cur : List Tab) (t : Tab)
    (hh : tabTracked tracked h = false) :
    eraseStep tracked (h :: cur) t = h :: eraseStep tracked cur t := by
  unfold eraseStep
  rcases htu : t.input.uriProp with _ | u
  · rfl
  · dsimp only
    rcases htr : tracked.contains u with _ | _
    · rfl
    · rw [if_pos rfl]
      refine List.eraseP_cons_of_neg ?_
      intro hp
      have hhu : h.input.uriProp = some u := by simpa using hp
      unfold tabTracked at hh
      rw [hhu] at hh
      dsimp only at hh
      rw [htr] at hh
      cases hh

/-- Folding the erase steps over a snapshot of untracked-headed tabs keeps
the head. -/
theorem foldl_eraseStep_cons_untracked (tracked : List Uri) :
    ∀ (snapshot : List Tab) (h : Tab) (cur : List Tab),
      tabTracked tracked h = false →
      snapshot.foldl (eraseStep tracked) (h :: cur)
        = h :: snapshot.foldl (eraseStep tracked) cur := by
  intro snapshot
  induction snapshot with
  | nil => intro h cur _; rfl
  | cons t rest ih =>
    intro h cur hh
    rw [List.foldl_cons, List.foldl_cons, eraseStep_cons_untracked tracked h cur t hh]
    exact ih h _ hh

/-- Replaying a snapshot's own erase steps filters out exactly the tracked
tabs. -/
theorem foldl_eraseStep_self (tracked : List Uri) :
    ∀ (ts : List Tab),
      ts.foldl (eraseStep tracked) ts = ts.filter (fun t => !(tabTracked tracked t)) := by
  intro ts
  induction ts with
  | nil => rfl
  | cons t rest ih =>
    rcases htr : tabTracked tracked t with _ | _
    · rw [List.foldl_cons]
      have hstep : eraseStep tracked (t :: rest) t = t :: rest := by
        unfold eraseStep tabTracked at *
        rcases htu : t.input.uriProp with _ | u
        · rfl
        · rw [htu] at htr
          dsimp only at htr
          dsimp only
          rw [htr]
          exact rfl
      rw [hstep, foldl_eraseStep_cons_untracked tracked rest t rest htr, ih]
      rw [List.filter_cons_of_pos (by rw [htr]; rfl)]
    · rw [List.foldl_cons]
      have hstep : eraseStep tracked (t :: rest) t = rest := by
        unfold eraseStep tabTracked at *
        rcases htu : t.input.uriProp with _ | u
        · rw [htu] at htr; cases htr
        · rw [htu] at htr
          dsimp only at htr
          dsimp only
          rw [htr, if_pos rfl]
          refine List.eraseP_cons_of_pos ?_
          rw [htu]
          simp
      rw [hstep, ih]
      rw [List.filter_cons_of_neg (by rw [htr]; simp)]

/-- Column presence is unchanged by the per-column tab update. -/
theorem any_col_map_update (gs : List TabGroup) (f : TabGroup → List Tab) (c c' : Nat) :
    ((gs.map (fun g => if g.viewColumn = c then { g with tabs := f g } else g)).any
        (fun g => g.viewColumn == c'))
      = gs.any (fun g => g.viewColumn == c') := by
  rw [List.any_map]
  exact congrArg (List.any gs)
    (funext fun g => by by_cases hgc : g.viewColumn = c <;> simp [hgc])

/-- The inner loop of the closing pass rewrites exactly the processed
column's tab list, by the list-level erase steps of the snapshot. -/
theorem innerFold_groups (tracked : List Uri) (c : Nat) :
    ∀ (snapshot : List Tab) (acc : Window),
      acc.groups.any (fun g => g.viewColumn == c) = true →
      (snapshot.foldl (closeTabStep tracked c) acc).groups
        = acc.groups.map (fun g =>
            if g.viewColumn = c then
              { g with tabs := snapshot.foldl (eraseStep tracked) g.tabs }
            else g) := by
  intro snapshot
  induction snapshot with
  | nil =>
    intro acc _
    rw [show (fun (g : TabGroup) =>
        if g.viewColumn = c then { g with tabs := List.foldl (eraseStep tracked) g.tabs [] }
        else g) = id from funext fun g => by split <;> rfl]
    rw [List.map_id]
    rfl
  | cons t rest ih =>
    intro acc hc
    rw [List.foldl_cons]
    rcases htu : t.input.uriProp with _ | u
    · have hstep : closeTabStep tracked c acc t = acc := by
        unfold closeTabStep
        rw [htu]
      rw [hstep, ih acc hc]
      refine List.map_congr_left fun g _ => ?_
      have hestep : eraseStep tracked g.tabs t = g.tabs := by
        unfold eraseStep
        rw [htu]
      rw [List.foldl_cons, hestep]
    · rcases htr : tracked.contains u with _ | _
      · have hstep : closeTabStep tracked c acc t = acc := by
          unfold closeTabStep
          rw [htu]
          dsimp only
          rw [htr]
          exact rfl
        rw [hstep, ih acc hc]
        refine List.map_congr_left fun g _ => ?_
        have hestep : eraseStep tracked g.tabs t = g.tabs := by
          unfold eraseStep
          rw [htu]
          dsimp only
          rw [htr]
          exact rfl
        rw [List.foldl_cons, hestep]
      · have hstep : closeTabStep tracked c acc t = closeTabInGroup acc c u := by
          unfold closeTabStep
          rw [htu]
          dsimp only
          rw [htr]
          exact rfl
        rw [hstep]
        have hcg := closeTabInGroup_groups acc c u hc
        have hc2 : (closeTabInGroup acc c u).groups.any (fun g => g.viewColumn == c)
            = true := by
          rw [hcg.1, any_col_map_update]
          exact hc
        rw [ih _ hc2, hcg.1, List.map_map]
        refine List.map_congr_left fun g _ => ?_
        by_cases hgc : g.viewColumn = c
        · simp only [Function.comp_apply, if_pos hgc]
          have hestep : eraseStep tracked g.tabs t
              = g.tabs.eraseP (fun x => x.input.uriProp == some u) := by
            unfold eraseStep
            rw [htu]
            dsimp only
            rw [htr]
            exact rfl
          rw [List.foldl_cons, hestep]
        · simp only [Function.comp_apply, if_neg hgc]

/-- The outer loop of the closing pass filters the tracked tabs out of every
non-primary group it visits, given distinct columns and a window agreeing
with the group snapshots. -/
theorem closeSplitPass_outer (tracked : List Uri) :
    ∀ (gs : List TabGroup) (acc : Window),
      (gs.map (fun g => g.viewColumn)).Nodup →
      (∀ g ∈ gs, acc.groups.any (fun ag => ag.viewColumn == g.viewColumn) = true) →
      (∀ g ∈ gs, ∀ ag ∈ acc.groups, ag.viewColumn = g.viewColumn → ag.tabs = g.tabs) →
      (gs.foldl (closeGroupPass tracked) acc).groups
        = acc.groups.map (fun ag =>
            if ag.viewColumn ≠ 1 ∧ gs.any (fun g => g.viewColumn == ag.viewColumn) = true
            then { ag with tabs := ag.tabs.filter (fun t => !(tabTracked tracked t)) }
            else ag) := by
  intro gs
  induction gs with
  | nil =>
    intro acc _ _ _
    rw [show (fun (ag : TabGroup) =>
        if ag.viewColumn ≠ 1 ∧ ([] : List TabGroup).any
            (fun g => g.viewColumn == ag.viewColumn) = true
        then { ag with tabs := ag.tabs.filter (fun t => !(tabTracked tracked t)) }
        else ag) = id from funext fun ag => if_neg fun h => Bool.noConfusion h.2]
    rw [List.map_id]
    rfl
  | cons g rest ih =>
    intro acc hnod hpres hagree
    have hnod' : (rest.map (fun g => g.viewColumn)).Nodup :=
      (List.nodup_cons.mp hnod).2
    have hgrest : g.viewColumn ∉ rest.map (fun g => g.viewColumn) :=
      (List.nodup_cons.mp hnod).1
    rw [List.foldl_cons]
    by_cases hg1 : g.viewColumn = 1
    · have hstep : closeGroupPass tracked acc g = acc := by
        unfold closeGroupPass
        rw [if_pos hg1]
      rw [hstep, ih acc hnod'
        (fun g' hg' => hpres g' (List.mem_cons_of_mem g hg'))
        (fun g' hg' => hagree g' (List.mem_cons_of_mem g hg'))]
      refine List.map_congr_left fun ag _ => ?_
      by_cases hag1 : ag.viewColumn = 1
      · rw [if_neg (fun h => h.1 hag1), if_neg (fun h => h.1 hag1)]
      · have hbeq : (g.viewColumn == ag.viewColumn) = false := by
          rw [hg1]
          exact beq_eq_false_iff_ne.mpr fun h => hag1 h.symm
        rw [List.any_cons, hbeq, Bool.false_or]
    · have hstep : closeGroupPass tracked acc g
          = g.tabs.foldl (closeTabStep tracked g.viewColumn) acc := by
        unfold closeGroupPass
        rw [if_neg hg1]
      rw [hstep]
      have hinner := innerFold_groups tracked g.viewColumn g.tabs acc
        (hpres g (List.mem_cons_self g rest))
      have hpres2 : ∀ g' ∈ rest,
          (g.tabs.foldl (closeTabStep tracked g.viewColumn) acc).groups.any
            (fun ag => ag.viewColumn == g'.viewColumn) = true := by
        intro g' hg'
        rw [hinner, any_col_map_update]
        exact hpres g' (List.mem_cons_of_mem g hg')
      have hagree2 : ∀ g' ∈ rest,
          ∀ ag ∈ (g.tabs.foldl (closeTabStep tracked g.viewColumn) acc).groups,
            ag.viewColumn = g'.viewColumn → ag.tabs = g'.tabs := by
        intro g' hg' ag hag hcol
        rw [hinner] at hag
        rcases List.mem_map.mp hag with ⟨ag0, hag0, heq⟩
        by_cases h0c : ag0.viewColumn = g.viewColumn
        · exfalso
          have hagcol : ag.viewColumn = ag0.viewColumn := by
            rw [← heq, if_pos h0c]
          apply hgrest
          rw [show g.viewColumn = g'.viewColumn from by
            rw [← h0c, ← hagcol, hcol]]
          exact List.mem_map.mpr ⟨g', hg', rfl⟩
        · rw [← heq, if_neg h0c] at hcol ⊢
          exact hagree g' (List.mem_cons_of_mem g hg') ag0 hag0 hcol
      rw [ih _ hnod' hpres2 hagree2, hinner, List.map_map]
      refine List.map_congr_left fun ag hag => ?_
      by_cases hagc : ag.viewColumn = g.viewColumn
      · have htabs : ag.tabs = g.tabs :=
          hagree g (List.mem_cons_self g rest) ag hag hagc
        have hrest_any : rest.any (fun g' => g'.viewColumn == ag.viewColumn) = false := by
          rcases hb : rest.any (fun g' => g'.viewColumn == ag.viewColumn) with _ | _
          · rfl
          · exfalso
            rcases List.any_eq_true.mp hb with ⟨g', hg', hbeq⟩
            apply hgrest
            rw [show g.viewColumn = g'.viewColumn from by
              rw [← hagc]
              exact ((by simpa using hbeq : g'.viewColumn = ag.viewColumn)).symm]
            exact List.mem_map.mpr ⟨g', hg', rfl⟩
        have hag1 : ag.viewColumn ≠ 1 := by
          rw [hagc]
          exact hg1
        simp only [Function.comp_apply, if_pos hagc]
        rw [if_neg (fun h => by rw [hrest_any] at h; exact Bool.noConfusion h.2)]
        rw [if_pos ⟨hag1, by
          rw [List.any_cons]
          rw [show (g.viewColumn == ag.viewColumn) = true from by
            exact beq_iff_eq.mpr hagc.symm]
          rfl⟩]
        rw [htabs, foldl_eraseStep_self]
      · simp only [Function.comp_apply, if_neg hagc]
        have hbeq : (g.viewColumn == ag.viewColumn) = false :=
          beq_eq_false_iff_ne.mpr fun h => hagc h.symm
        rw [List.any_cons, hbeq, Bool.false_or]

/-- The groups after `showTextDocumentIn`, case-split on column presence. -/
theorem showTextDocumentIn_groups (w : Window) (u : Uri) (c : Nat) (pf : Bool) :
    (showTextDocumentIn w u c pf).groups
      = if w.groups.any (fun g => g.viewColumn == c) then
          w.groups.map (fun g =>
            if g.viewColumn = c then
              if (findTabByUri g.tabs u).isSome then g
              else { g with tabs := g.tabs ++ [{ label := u, input := .text u }] }
            else g)
        else w.groups ++ [{ viewColumn := c, tabs := [{ label := u, input := .text u }] }] := by
  unfold showTextDocumentIn
  rcases hany : w.groups.any (fun g => g.viewColumn == c) with _ | _ <;>
    rcases pf with _ | _ <;> exact rfl

/-- `showTextDocument` never removes an open document view. -/
theorem inputOpenIn_show (w : Window) (u : Uri) (c : Nat) (pf : Bool) (i : TabInput)
    (h : inputOpenIn w i) : inputOpenIn (showTextDocumentIn w u c pf) i := by
  rcases h with ⟨g, hg, t, ht, hti⟩
  unfold inputOpenIn
  rw [showTextDocumentIn_groups]
  rcases hany : w.groups.any (fun g => g.viewColumn == c) with _ | _
  · rw [if_neg Bool.false_ne_true]
    exact ⟨g, List.mem_append_left _ hg, t, ht, hti⟩
  · rw [if_pos rfl]
    refine ⟨_, List.mem_map.mpr ⟨g, hg, rfl⟩, ?_⟩
    by_cases hgc : g.viewColumn = c
    · rw [if_pos hgc]
      by_cases hf : (findTabByUri g.tabs u).isSome = true
      · rw [if_pos hf]
        exact ⟨t, ht, hti⟩
      · rw [if_neg hf]
        exact ⟨t, List.mem_append_left _ ht, hti⟩
    · rw [if_neg hgc]
      exact ⟨t, ht, hti⟩

/-- The move-into-primary loop of `closeSplitTabsCmd` never removes an open
document view. -/
theorem inputOpenIn_moves (i : TabInput) :
    ∀ (ts : List Tab) (w : Window), inputOpenIn w i →
      inputOpenIn (ts.foldl (fun w t =>
        match t.input.uriProp with
        | some u => showTextDocumentIn w u 1 false
        | none => w) w) i := by
  intro ts
  induction ts with
  | nil => intro w h; exact h
  | cons t rest ih =>
    intro w h
    rw [List.foldl_cons]
    refine ih _ ?_
    rcases htu : t.input.uriProp with _ | u
    · simpa [htu] using h
    · simpa [htu] using inputOpenIn_show w u 1 false i h

/-- Deduplication by input keeps at least one tab for each open input. -/
theorem dedupByInputAux_mem (i : TabInput) :
    ∀ (l : List Tab) (seen : List TabInput),
      i ∉ seen → (∃ t ∈ l, t.input = i) →
      ∃ t ∈ dedupByInputAux seen l, t.input = i := by
  intro l
  induction l with
  | nil =>
    intro seen _ h
    rcases h with ⟨t, ht, _⟩
    cases ht
  | cons x xs ih =>
    intro seen hns h
    unfold dedupByInputAux
    by_cases hx : x.input ∈ seen
    · rw [if_pos hx]
      rcases h with ⟨t, ht, hti⟩
      rcases List.mem_cons.mp ht with rfl | htxs
      · exact absurd (hti ▸ hx) hns
      · exact ih seen hns ⟨t, htxs, hti⟩
    · rw [if_neg hx]
      rcases h with ⟨t, ht, hti⟩
      rcases List.mem_cons.mp ht with rfl | htxs
      · exact ⟨t, List.mem_cons_self _ _, hti⟩
      · by_cases hxi : x.input = i
        · exact ⟨x, List.mem_cons_self _ _, hxi⟩
        · have hns' : i ∉ x.input :: seen := by
            intro hmem
            rcases List.mem_cons.mp hmem with h1 | h2
            · exact hxi h1.symm
            · exact hns h2
          rcases ih (x.input :: seen) hns' ⟨t, htxs, hti⟩ with ⟨t', ht', hti'⟩
          exact ⟨t', List.mem_cons_of_mem _ ht', hti'⟩

/-- Collapsing the layout to one column never removes an open document
view. -/
theorem inputOpenIn_layout (w : Window) (i : TabInput) (h : inputOpenIn w i) :
    inputOpenIn (editorLayoutSingle w) i := by
  rcases h with ⟨g, hg, t, ht, hti⟩
  have hflat : ∃ t' ∈ w.groups.flatMap (fun g => g.tabs), t'.input = i :=
    ⟨t, List.mem_flatMap.mpr ⟨g, hg, ht⟩, hti⟩
  rcases dedupByInputAux_mem i _ [] (by simp) hflat with ⟨t', ht', hti'⟩
  exact ⟨_, List.mem_cons_self _ _, t', ht', hti'⟩

/-- Moving a found tab to the front permutes the column. -/
theorem moveTabToFront_perm (tabs : List Tab) (u : Uri) :
    (moveTabToFront tabs u).Perm tabs := by
  unfold moveTabToFront
  rcases hf : tabs.find? (fun t => t.input.uriProp == some u) with _ | t
  · simp only [hf]
    exact List.Perm.refl _
  · simp only [hf]
    exact (List.perm_cons_erase (List.mem_of_find?_eq_some hf)).symm

/-- The replay permutes the column. -/
theorem replayInitialOrder_perm (order : List Uri) (tabs : List Tab) :
    (replayInitialOrder order tabs).Perm tabs := by
  unfold replayInitialOrder
  induction order with
  | nil => exact List.Perm.refl _
  | cons u ord ih =>
    rw [List.foldr_cons]
    exact (moveTabToFront_perm _ u).trans ih

/-- The replay never removes an open document view. -/
theorem inputOpenIn_replay (order : List Uri) (w : Window) (i : TabInput)
    (h : inputOpenIn w i) : inputOpenIn (closeReplay order w) i := by
  rcases h with ⟨g, hg, t, ht, hti⟩
  unfold closeReplay
  by_cases hgc : g.viewColumn = 1
  · refine ⟨{ g with tabs := replayInitialOrder order g.tabs },
      List.mem_map.mpr ⟨g, hg, by rw [if_pos hgc]⟩, ?_⟩
    exact ⟨t, (replayInitialOrder_perm order g.tabs).mem_iff.mpr ht, hti⟩
  · exact ⟨g, List.mem_map.mpr ⟨g, hg, by rw [if_neg hgc]⟩, t, ht, hti⟩

/-- The closing pass characterized for a whole window with distinct
columns: column One is untouched, every other column loses exactly its
tracked text tabs. -/
theorem closeSplitPass_groups (tracked : List Uri) (w : Window)
    (hcols : (w.groups.map (fun g => g.viewColumn)).Nodup) :
    (closeSplitPass tracked w).groups
      = w.groups.map (fun g =>
          if g.viewColumn = 1 then g
          else { g with tabs := g.tabs.filter (fun t => !(tabTracked tracked t)) }) := by
  unfold closeSplitPass
  rw [closeSplitPass_outer tracked w.groups w hcols
    (fun g hg => List.any_eq_true.mpr ⟨g, hg, by simp⟩)
    (fun g hg ag hag hcol =>
      congrArg TabGroup.tabs (List.inj_on_of_nodup_map hcols hag hg hcol))]
  refine List.map_congr_left fun ag hag => ?_
  have hany : w.groups.any (fun g => g.viewColumn == ag.viewColumn) = true :=
    List.any_eq_true.mpr ⟨ag, hag, by simp⟩
  by_cases hag1 : ag.viewColumn = 1
  · rw [if_neg (fun h => h.1 hag1), if_pos hag1]
  · rw [if_pos ⟨hag1, hany⟩, if_neg hag1]

/-- A tab whose uri is untracked survives the closing pass. -/
theorem inputOpenIn_pass (tracked : List Uri) (w : Window)
    (hcols : (w.groups.map (fun g => g.viewColumn)).Nodup)
    (g : TabGroup) (hg : g ∈ w.groups) (t : Tab) (ht : t ∈ g.tabs)
    (htr : tabTracked tracked t = false) :
    inputOpenIn (closeSplitPass tracked w) t.input := by
  unfold inputOpenIn
  rw [closeSplitPass_groups tracked w hcols]
  refine ⟨_, List.mem_map.mpr ⟨g, hg, rfl⟩, ?_⟩
  by_cases hg1 : g.viewColumn = 1
  · rw [if_pos hg1]
    exact ⟨t, ht, rfl⟩
  · rw [if_neg hg1]
    exact ⟨t, List.mem_filter.mpr ⟨ht, by rw [htr]; rfl⟩, rfl⟩

/-- Appending to a uri list preserves `contains`. -/
theorem contains_append_left (l l' : List Uri) (u : Uri) (h : l.contains u = true) :
    (l ++ l').contains u = true :=
  List.elem_iff.mpr (List.mem_append_left _ (List.elem_iff.mp h))

/-- A tab population whose uri trace is duplicate-free and all-present has
duplicate-free inputs. -/
theorem inputs_nodup_of_uris :
    ∀ (tabs : List Tab),
      (tabs.filterMap (fun t => t.input.uriProp)).Nodup →
      (∀ t ∈ tabs, isTextTabInput t.input = true) →
      (tabs.map (fun t => t.input)).Nodup := by
  intro tabs
  induction tabs with
  | nil => intro _ _; simp
  | cons t rest ih =>
    intro hT htext
    rcases htu : t.input.uriProp with _ | u
    · have hx := htext t (List.mem_cons_self _ _)
      unfold isTextTabInput at hx
      rw [htu] at hx
      cases hx
    · rw [List.filterMap_cons, htu] at hT
      have hT' := List.nodup_cons.mp hT
      rw [List.map_cons]
      refine List.nodup_cons.mpr
        ⟨?_, ih hT'.2 (fun x hx => htext x (List.mem_cons_of_mem _ hx))⟩
      intro hmem
      rcases List.mem_map.mp hmem with ⟨x, hx, hxi⟩
      have hxu : x.input.uriProp = some u := by rw [hxi]; exact htu
      exact hT'.1 (List.mem_filterMap.mpr ⟨x, hx, hxu⟩)

/-- Deduplication by input is the identity on a duplicate-free, unseen tab
list. -/
theorem dedupByInputAux_self :
    ∀ (l : List Tab) (seen : List TabInput),
      (l.map (fun t => t.input)).Nodup →
      (∀ t ∈ l, t.input ∉ seen) →
      dedupByInputAux seen l = l := by
  intro l
  induction l with
  | nil => intro seen _ _; rfl
  | cons t rest ih =>
    intro seen hnd hns
    unfold dedupByInputAux
    rw [if_neg (hns t (List.mem_cons_self _ _))]
    rw [List.map_cons] at hnd
    have hnd' := List.nodup_cons.mp hnd
    congr 1
    refine ih (t.input :: seen) hnd'.2 ?_
    intro x hx hmem
    rcases List.mem_cons.mp hmem with h1 | h2
    · exact hnd'.1 (h1 ▸ List.mem_map.mpr ⟨x, hx, rfl⟩)
    · exact hns x (List.mem_cons_of_mem _ hx) h2

/-- Looking every uri of a duplicate-free, all-uri tab list back up with
`find?` recovers the tab list itself. -/
theorem filterMap_find_self :
    ∀ (tabs : List Tab),
      (tabs.filterMap (fun t => t.input.uriProp)).Nodup →
      (∀ t ∈ tabs, isTextTabInput t.input = true) →
      (tabs.filterMap (fun t => t.input.uriProp)).filterMap
          (fun u => tabs.find? (fun t => t.input.uriProp == some u))
        = tabs := by
  intro tabs
  induction tabs with
  | nil => intro _ _; rfl
  | cons t rest ih =>
    intro hT htext
    rcases htu : t.input.uriProp with _ | u
    · have hx := htext t (List.mem_cons_self _ _)
      unfold isTextTabInput at hx
      rw [htu] at hx
      cases hx
    · have horder : (t :: rest).filterMap (fun x => x.input.uriProp)
          = u :: rest.filterMap (fun x => x.input.uriProp) := by
        simp only [List.filterMap_cons, htu]
      rw [horder] at hT
      have hT' := List.nodup_cons.mp hT
      have hfind_t : (t :: rest).find? (fun x => x.input.uriProp == some u) = some t :=
        List.find?_cons_of_pos _ (by rw [htu]; simp)
      rw [horder]
      simp only [List.filterMap_cons, hfind_t]
      have hcongr : (rest.filterMap (fun x => x.input.uriProp)).filterMap
            (fun v => (t :: rest).find? (fun x => x.input.uriProp == some v))
          = (rest.filterMap (fun x => x.input.uriProp)).filterMap
            (fun v => rest.find? (fun x => x.input.uriProp == some v)) := by
        refine List.filterMap_congr fun v hv => ?_
        have hvu : v ≠ u := fun h => hT'.1 (h ▸ hv)
        refine List.find?_cons_of_neg _ ?_
        intro hp
        rw [htu] at hp
        exact hvu (Option.some.inj (eq_of_beq hp)).symm
      rw [hcongr, ih hT'.2 (fun x hx => htext x (List.mem_cons_of_mem _ hx))]

/-- Replaying a column's own uri trace restores the column exactly. -/
theorem replay_self (tabs : List Tab)
    (hT : (tabs.filterMap (fun t => t.input.uriProp)).Nodup)
    (htext : ∀ t ∈ tabs, isTextTabInput t.input = true) :
    replayInitialOrder (tabs.filterMap (fun t => t.input.uriProp)) tabs = tabs := by
  rw [replay_core tabs hT _ hT, filterMap_find_self tabs hT htext]
  have hfilter : tabs.filter (fun t =>
      match t.input.uriProp with
      | some u => !((tabs.filterMap (fun t => t.input.uriProp)).contains u)
      | none => true) = [] := by
    rw [List.filter_eq_nil_iff]
    intro t ht hb
    rcases htu : t.input.uriProp with _ | u
    · have hx := htext t ht
      unfold isTextTabInput at hx
      rw [htu] at hx
      cases hx
    · have hc : (tabs.filterMap (fun t => t.input.uriProp)).contains u = true :=
        List.elem_iff.mpr (List.mem_filterMap.mpr ⟨t, ht, htu⟩)
      simp only [htu, hc] at hb
      cases hb
  rw [hfilter, List.append_nil]

/-- A flat map all of whose images are empty is empty. -/
theorem flatMap_eq_nil_of_forall {α : Type} (f : TabGroup → List α) :
    ∀ (l : List TabGroup), (∀ g ∈ l, f g = []) → l.flatMap f = [] := by
  intro l
  induction l with
  | nil => intro _; rfl
  | cons g gs ih =>
    intro h
    rw [List.flatMap_cons, h g (List.mem_cons_self _ _), List.nil_append]
    exact ih (fun x hx => h x (List.mem_cons_of_mem _ hx))

/-- Showing a document in a column other than One with focus preserved keeps
the primary group intact, keeps the column list duplicate-free, and adds to
the non-primary groups only a tab carrying the shown uri. -/
theorem showTextDocumentIn_shape (w : Window) (tabs : List Tab) (extra : List TabGroup)
    (u : Uri) (c : Nat) (tr : List Uri) (hc : 2 ≤ c)
    (hw : w.groups = { viewColumn := 1, tabs := tabs } :: extra)
    (hnd : (w.groups.map (fun g => g.viewColumn)).Nodup)
    (hextra : ∀ g ∈ extra, ∀ t ∈ g.tabs,
      ∃ v, t.input.uriProp = some v ∧ tr.contains v = true) :
    ∃ extra2, (showTextDocumentIn w u c true).groups
        = { viewColumn := 1, tabs := tabs } :: extra2
      ∧ ((showTextDocumentIn w u c true).groups.map (fun g => g.viewColumn)).Nodup
      ∧ ∀ g ∈ extra2, ∀ t ∈ g.tabs,
          ∃ v, t.input.uriProp = some v ∧ (tr ++ [u]).contains v = true := by
  have hgroups := showTextDocumentIn_groups w u c true
  have hmono : ∀ v, tr.contains v = true → (tr ++ [u]).contains v = true := fun v hv =>
    contains_append_left tr [u] v hv
  have humem : (tr ++ [u]).contains u = true :=
    List.elem_iff.mpr (List.mem_append_right _ (List.mem_singleton_self u))
  rcases hany : w.groups.any (fun g => g.viewColumn == c) with _ | _
  · rw [hany, if_neg Bool.false_ne_true] at hgroups
    refine ⟨extra ++ [{ viewColumn := c, tabs := [{ label := u, input := TabInput.text u }] }],
      ?_, ?_, ?_⟩
    · rw [hgroups, hw, List.cons_append]
    · rw [hgroups, hw, List.map_append]
      refine List.Nodup.append (by rw [← hw]; exact hnd) (List.nodup_singleton _) ?_
      intro a ha hb
      have hac2 : a = c := by simpa using hb
      subst hac2
      rcases List.mem_map.mp ha with ⟨g, hgm, hgc⟩
      have hanyt : (({ viewColumn := 1, tabs := tabs } : TabGroup) :: extra).any
          (fun g => g.viewColumn == a) = true :=
        List.any_eq_true.mpr ⟨g, hgm, by simp [hgc]⟩
      rw [← hw] at hanyt
      rw [hany] at hanyt
      cases hanyt
    · intro g hgm t ht
      rcases List.mem_append.mp hgm with hgm | hgm
      · rcases hextra g hgm t ht with ⟨v, hv, hvc⟩
        exact ⟨v, hv, hmono v hvc⟩
      · have hgeq := List.mem_singleton.mp hgm
        subst hgeq
        have hteq := List.mem_singleton.mp ht
        subst hteq
        exact ⟨u, rfl, humem⟩
  · rw [hany, if_pos rfl] at hgroups
    refine ⟨extra.map (fun g =>
        if g.viewColumn = c then
          if (findTabByUri g.tabs u).isSome then g
          else { g with tabs := g.tabs ++ [{ label := u, input := TabInput.text u }] }
        else g), ?_, ?_, ?_⟩
    · rw [hgroups, hw, List.map_cons]
      have h1c : ¬(({ viewColumn := 1, tabs := tabs } : TabGroup).viewColumn = c) := by
        intro h
        have h' : 1 = c := h
        omega
      congr 1
      dsimp only
      rw [if_neg h1c]
    · rw [hgroups]
      have hcols2 : ((w.groups.map (fun g =>
            if g.viewColumn = c then
              if (findTabByUri g.tabs u).isSome then g
              else { g with tabs := g.tabs ++ [{ label := u, input := TabInput.text u }] }
            else g)).map (fun g => g.viewColumn))
          = w.groups.map (fun g => g.viewColumn) := by
        rw [List.map_map]
        refine List.map_congr_left fun g _ => ?_
        simp only [Function.comp_apply]
        by_cases h1 : g.viewColumn = c
        · rw [if_pos h1]
          by_cases h2 : (findTabByUri g.tabs u).isSome = true
          · rw [if_pos h2]
          · rw [if_neg h2]
        · rw [if_neg h1]
      rw [hcols2]
      exact hnd
    · intro g' hg'm t ht
      rcases List.mem_map.mp hg'm with ⟨g, hgm, rfl⟩
      by_cases h1 : g.viewColumn = c
      · rw [if_pos h1] at ht
        by_cases h2 : (findTabByUri g.tabs u).isSome = true
        · rw [if_pos h2] at ht
          rcases hextra g hgm t ht with ⟨v, hv, hvc⟩
          exact ⟨v, hv, hmono v hvc⟩
        · rw [if_neg h2] at ht
          have ht' : t ∈ g.tabs ++ [{ label := u, input := TabInput.text u }] := ht
          rcases List.mem_append.mp ht' with hta | htb
          · rcases hextra g hgm t hta with ⟨v, hv, hvc⟩
            exact ⟨v, hv, hmono v hvc⟩
          · have hteq := List.mem_singleton.mp htb
            subst hteq
            exact ⟨u, rfl, humem⟩
      · rw [if_neg h1] at ht
        rcases hextra g hgm t ht with ⟨v, hv, hvc⟩
        exact ⟨v, hv, hmono v hvc⟩

/-- The split loop keeps the primary group intact, keeps the column list
duplicate-free, and fills the non-primary groups only with tabs whose uris
it pushed onto `splitTabUris`. -/
theorem splitLoop_window_shape (choice : Uri → SaveChoice) (act : Option Uri)
    (tabs : List Tab) :
    ∀ (chosen : List Tab) (st : LoopOut),
      1 ≤ st.currentColumn →
      (∃ extra, st.window.groups = { viewColumn := 1, tabs := tabs } :: extra
        ∧ (st.window.groups.map (fun g => g.viewColumn)).Nodup
        ∧ ∀ g ∈ extra, ∀ t ∈ g.tabs,
            ∃ v, t.input.uriProp = some v ∧ st.splitTabUris.contains v = true) →
      ∃ extra, (splitLoop choice act chosen st).window.groups
          = { viewColumn := 1, tabs := tabs } :: extra
        ∧ ((splitLoop choice act chosen st).window.groups.map (fun g => g.viewColumn)).Nodup
        ∧ ∀ g ∈ extra, ∀ t ∈ g.tabs,
            ∃ v, t.input.uriProp = some v ∧
              (splitLoop choice act chosen st).splitTabUris.contains v = true := by
  intro chosen
  induction chosen with
  | nil => intro st _ h; exact h
  | cons tab rest ih =>
    intro st hcc hinv
    rcases htab : tab.input.uriProp with _ | docUri
    · simp only [splitLoop, htab]
      exact ih st hcc hinv
    · by_cases hac : some docUri = act
      · simp only [splitLoop, htab, if_pos hac]
        exact ih st hcc hinv
      · by_cases hdd : st.dirty.contains docUri = true ∧ choice docUri = SaveChoice.dismiss
        · simp only [splitLoop, htab, if_neg hac, if_pos hdd]
          exact ih st hcc hinv
        · simp only [splitLoop, htab, if_neg hac, if_neg hdd]
          rcases hinv with ⟨extra, hw, hnd, htr⟩
          have hcol2 : 2 ≤ (if st.currentColumn + 1 > 9 then 9 else st.currentColumn + 1) := by
            split_ifs <;> omega
          rcases showTextDocumentIn_shape st.window tabs extra docUri _
              st.splitTabUris hcol2 hw hnd htr with ⟨extra2, hw2, hnd2, htr2⟩
          refine ih _ ?_ ?_
          · show 1 ≤ (if st.currentColumn + 1 > 9 then 9 else st.currentColumn + 1)
            split_ifs <;> omega
          · exact ⟨extra2, hw2, hnd2, htr2⟩

/-- Running close/consolidate on a window whose non-primary groups hold only
tracked uri-bearing tabs, with the recorded order being the primary column's
own uri trace, collapses the window back to exactly the primary column. -/
theorem closeSplitTabsCmd_restores (s' : ExtState) (tabs : List Tab)
    (hshape : ∃ extra, s'.window.groups = { viewColumn := 1, tabs := tabs } :: extra
      ∧ (s'.window.groups.map (fun g => g.viewColumn)).Nodup
      ∧ ∀ g ∈ extra, ∀ t ∈ g.tabs,
          ∃ v, t.input.uriProp = some v ∧ s'.splitTabUris.contains v = true)
    (horder : s'.workspaceInitialOrder = tabs.filterMap (fun t => t.input.uriProp))
    (hT : (tabs.filterMap (fun t => t.input.uriProp)).Nodup)
    (htext : ∀ t ∈ tabs, isTextTabInput t.input = true) :
    (closeSplitTabsCmd s').window.groups = [{ viewColumn := 1, tabs := tabs }] := by
  rcases hshape with ⟨extra, hg, hcols, hextra⟩
  have hcol1 : ∀ g ∈ extra, g.viewColumn ≠ 1 := by
    intro g hgm heq
    rw [hg, List.map_cons] at hcols
    exact (List.nodup_cons.mp hcols).1 (heq ▸ List.mem_map.mpr ⟨g, hgm, rfl⟩)
  have hpass : (closeSplitPass s'.splitTabUris s'.window).groups
      = { viewColumn := 1, tabs := tabs }
        :: extra.map (fun g => { g with tabs := ([] : List Tab) }) := by
    rw [closeSplitPass_groups _ _ hcols, hg, List.map_cons]
    congr 1
    refine List.map_congr_left fun g hgm => ?_
    rw [if_neg (hcol1 g hgm)]
    have hnil : g.tabs.filter (fun t => !(tabTracked s'.splitTabUris t)) = [] := by
      rw [List.filter_eq_nil_iff]
      intro t ht hb
      rcases hextra g hgm t ht with ⟨v, hv, hvc⟩
      have htrk : tabTracked s'.splitTabUris t = true := by
        unfold tabTracked
        rw [hv]
        exact hvc
      rw [htrk] at hb
      cases hb
    rw [hnil]
  have hcollect : collectTabsToMove (closeSplitPass s'.splitTabUris s'.window)
      ((closeSplitPass s'.splitTabUris s'.window).active.map (fun p => p.1)) = [] := by
    unfold collectTabsToMove
    rw [hpass]
    rw [List.filter_cons_of_neg (by simp)]
    refine flatMap_eq_nil_of_forall _ _ ?_
    intro g hgm
    rcases List.mem_filter.mp hgm with ⟨hgm2, _⟩
    rcases List.mem_map.mp hgm2 with ⟨g0, _, rfl⟩
    rfl
  have hflat : (closeSplitPass s'.splitTabUris s'.window).groups.flatMap (fun g => g.tabs)
      = tabs := by
    rw [hpass, List.flatMap_cons]
    have h2 : (extra.map (fun g => { g with tabs := ([] : List Tab) })).flatMap
        (fun g => g.tabs) = [] := by
      refine flatMap_eq_nil_of_forall _ _ ?_
      intro g hgm
      rcases List.mem_map.mp hgm with ⟨g0, _, rfl⟩
      rfl
    rw [h2, List.append_nil]
  have hinputs : (tabs.map (fun t => t.input)).Nodup := inputs_nodup_of_uris tabs hT htext
  have hlayout : editorLayoutSingle (closeSplitPass s'.splitTabUris s'.window)
      = { groups := [{ viewColumn := 1, tabs := tabs }],
          active := (closeSplitPass s'.splitTabUris s'.window).active.map (fun p => (p.1, 1)),
          activeGroupCol := 1 } := by
    unfold editorLayoutSingle
    rw [hflat, dedupByInputAux_self tabs [] hinputs (fun t _ => List.not_mem_nil t.input)]
  have hreplay : closeReplay s'.workspaceInitialOrder
      { groups := [{ viewColumn := 1, tabs := tabs }],
        active := (closeSplitPass s'.splitTabUris s'.window).active.map (fun p => (p.1, 1)),
        activeGroupCol := 1 }
      = { groups := [{ viewColumn := 1, tabs := replayInitialOrder s'.workspaceInitialOrder tabs }],
          active := (closeSplitPass s'.splitTabUris s'.window).active.map (fun p => (p.1, 1)),
          activeGroupCol := 1 } := rfl
  unfold closeSplitTabsCmd
  dsimp only
  rw [hcollect]
  have hsort : jsStableSort (closeSortLe s'.workspaceInitialOrder) [] = [] := rfl
  rw [hsort, List.foldl_nil, hlayout, hreplay]
  dsimp only
  rw [horder, replay_self tabs hT htext]

/-! ### Claim theorems -/

/-- C8: for every open-group invocation, the self-opened tracking set
`splitTabUris` is identical before and after the command, so tabs opened via
"open group" are never added to the tracking set. -/
theorem C8_open_group_preserves_tracking (pickedName : Option String)
    (choice : Uri → SaveChoice) (s : ExtState) :
    (openSplitTabGroupCmd pickedName choice s).splitTabUris = s.splitTabUris := by
  unfold openSplitTabGroupCmd
  split
  · rfl
  · match pickedName with
    | none => rfl
    | some name =>
      dsimp only
      split
      · rfl
      · exact openLoop_splitTabUris choice _ _

/-- C7: when a group of the chosen name already exists, the persisted
collection is unchanged unless the overwrite prompt is answered `"Yes"`,
and it can only change when the answer was `"Yes"`. -/
theorem C7_duplicate_name_requires_yes (picked : Option (List String)) (groupName : String)
    (overwrite : ConfirmChoice) (s : ExtState)
    (hdup : s.splitTabGroups.any (fun g => g.name == groupName) = true) :
    (overwrite ≠ ConfirmChoice.yes →
        (createSplitTabGroupCmd picked (some groupName) overwrite s).splitTabGroups
          = s.splitTabGroups) ∧
    ((createSplitTabGroupCmd picked (some groupName) overwrite s).splitTabGroups
          ≠ s.splitTabGroups → overwrite = ConfirmChoice.yes) := by
  have h1 : overwrite ≠ ConfirmChoice.yes →
      (createSplitTabGroupCmd picked (some groupName) overwrite s).splitTabGroups
        = s.splitTabGroups := by
    intro hne
    cases overwrite with
    | yes => exact absurd rfl hne
    | no =>
      cases picked with
      | none =>
        unfold createSplitTabGroupCmd
        dsimp only
        split <;> rfl
      | some labels =>
        unfold createSplitTabGroupCmd
        dsimp only
        split
        · rfl
        · split
          · rfl
          · split
            · rfl
            · split
              · rfl
              · rfl
    | dismissed =>
      cases picked with
      | none =>
        unfold createSplitTabGroupCmd
        dsimp only
        split <;> rfl
      | some labels =>
        unfold createSplitTabGroupCmd
        dsimp only
        split
        · rfl
        · split
          · rfl
          · split
            · rfl
            · split
              · rfl
              · rfl
  refine ⟨h1, fun hne => ?_⟩
  by_cases hy : overwrite = ConfirmChoice.yes
  · exact hy
  · exact absurd (h1 hy) hne

/-- C7 witness: a concrete state with a duplicate name where a "No" answer
leaves the store unchanged. -/
theorem C7_duplicate_name_requires_yes_witness :
    ([(⟨"g", ["file:///old"]⟩ : SplitTabGroup)].any (fun g => g.name == "g")) = true ∧
    (createSplitTabGroupCmd (some ["a"]) (some "g") ConfirmChoice.no
        ⟨⟨[⟨1, [⟨"a", TabInput.text "file:///a"⟩]⟩], none, 1⟩, [], [],
          [⟨"g", ["file:///old"]⟩], []⟩).splitTabGroups
      = [⟨"g", ["file:///old"]⟩] := by
  refine ⟨by decide, ?_⟩
  exact (C7_duplicate_name_requires_yes (some ["a"]) "g" ConfirmChoice.no _
    (by decide)).1 (by decide)

/-- C9 (code-bug evidence): the full revision's `isTextTabInput` tests only
for a `uri` property, so a custom-editor tab — which is not a
`TabInputText` — contributes its uri to a group created by
`createSplitTabGroupCmd`. -/
theorem C9_custom_editor_input_contributes :
    (createSplitTabGroupCmd (some ["notes.ipynb"]) (some "g") ConfirmChoice.no
        ⟨⟨[⟨1, [⟨"notes.ipynb", TabInput.custom "nb" "file:///n.ipynb"⟩]⟩], none, 1⟩,
          [], [], [], []⟩).splitTabGroups
      = [⟨"g", ["file:///n.ipynb"]⟩]
    ∧ isInstanceOfTabInputText (TabInput.custom "nb" "file:///n.ipynb") = false
    ∧ isTextTabInput (TabInput.custom "nb" "file:///n.ipynb") = true := by
  refine ⟨by decide, rfl, rfl⟩

/-- C10: whenever at least one labeled tab exists, `splitSelectedTabsCmd`
overwrites the persisted `initialTabOrder` with the active group's current
text-tab uri order — for every outcome of the selection prompt, including a
dismissed or empty selection. -/
theorem C10_split_snapshots_before_prompt (picked : Option (List String))
    (choice : Uri → SaveChoice) (s : ExtState) (g : TabGroup)
    (hne : getAllLabeledTabs s.window ≠ [])
    (hg : activeTabGroup s.window = some g) :
    (splitSelectedTabsCmd picked choice s).workspaceInitialOrder
      = (g.tabs.filter (fun t => isTextTabInput t.input)).filterMap
          (fun t => t.input.uriProp) := by
  have hise : (getAllLabeledTabs s.window).isEmpty = false := by
    simpa [List.isEmpty_iff] using hne
  cases picked with
  | none =>
    unfold splitSelectedTabsCmd
    dsimp only
    rw [hise, hg]
    simp only [Bool.false_eq_true, if_false]
  | some labels =>
    unfold splitSelectedTabsCmd
    dsimp only
    rw [hise, hg]
    simp only [Bool.false_eq_true, if_false]
    split
    · rfl
    · split
      · rfl
      · rfl

/-- C10 witness: a dismissed prompt still replaces the recorded order. -/
theorem C10_split_snapshots_before_prompt_witness :
    getAllLabeledTabs ⟨[⟨1, [⟨"a", TabInput.text "file:///a"⟩]⟩], none, 1⟩ ≠ [] ∧
    (splitSelectedTabsCmd none (fun _ => SaveChoice.save)
        ⟨⟨[⟨1, [⟨"a", TabInput.text "file:///a"⟩]⟩], none, 1⟩, [],
          ["file:///stale"], [], []⟩).workspaceInitialOrder
      = ["file:///a"] := by
  refine ⟨by decide, ?_⟩
  have h := C10_split_snapshots_before_prompt none (fun _ => SaveChoice.save)
    ⟨⟨[⟨1, [⟨"a", TabInput.text "file:///a"⟩]⟩], none, 1⟩, [],
      ["file:///stale"], [], []⟩
    ⟨1, [⟨"a", TabInput.text "file:///a"⟩]⟩ (by decide) (by decide)
  exact h.trans (by decide)

/-- C3 (amended): the split loop shows exactly those chosen tabs whose input
carries a document uri (which, through the uri-property guard, includes
custom-editor inputs), that are not the active document, and whose save
prompt — when the document is dirty — is not answered with something other
than Save or Skip; uri-less tabs are never opened. -/
theorem C3_split_opens_characterized (choice : Uri → SaveChoice) (act : Option Uri)
    (chosen : List Tab) (st : LoopOut) (hstart : st.opened = []) :
    (splitLoop choice act chosen st).opened.map Prod.fst
      = chosen.filterMap (splitOpens choice act st.dirty) := by
  rw [splitLoop_opened_uris, hstart]
  rfl

/-- C3 witness: a clean, non-active text tab is opened, a uri-less (diff)
tab is not. -/
theorem C3_split_opens_characterized_witness :
    (⟨⟨[⟨1, [⟨"b", TabInput.text "file:///b"⟩]⟩], none, 1⟩, [], [], 1, []⟩ : LoopOut).opened
        = [] ∧
    (splitLoop (fun _ => SaveChoice.save) (some "file:///a")
        [⟨"b", TabInput.text "file:///b"⟩, ⟨"d", TabInput.textDiff "file:///x" "file:///y"⟩]
        ⟨⟨[⟨1, [⟨"b", TabInput.text "file:///b"⟩]⟩], none, 1⟩, [], [], 1, []⟩).opened.map
        Prod.fst
      = ["file:///b"] := by
  refine ⟨rfl, ?_⟩
  have h := C3_split_opens_characterized (fun _ => SaveChoice.save) (some "file:///a")
    [⟨"b", TabInput.text "file:///b"⟩, ⟨"d", TabInput.textDiff "file:///x" "file:///y"⟩]
    ⟨⟨[⟨1, [⟨"b", TabInput.text "file:///b"⟩]⟩], none, 1⟩, [], [], 1, []⟩ rfl
  exact h.trans (by decide)

/-- C3 counterexample: a chosen tab with a text-document input that is not
the active document is nevertheless not opened when its document is dirty
and the save prompt is dismissed — refuting "opens exactly the text-document
tabs of the selection that are not active". -/
theorem C3_counterexample_dirty_dismissed :
    (splitLoop (fun _ => SaveChoice.dismiss) none [⟨"b", TabInput.text "file:///b"⟩]
        ⟨⟨[⟨1, [⟨"b", TabInput.text "file:///b"⟩]⟩], none, 1⟩, [], ["file:///b"], 1,
          []⟩).opened = []
    ∧ isTextTabInput (TabInput.text "file:///b") = true
    ∧ (some "file:///b" : Option Uri) ≠ none := by
  refine ⟨by decide, rfl, by decide⟩

/-- C4: during a split and during open-group, the k-th tab actually opened
(0-indexed trace entry k) lands in column `min (start + k + 1) 9`, where
`start` is the loop's base column (the active editor's column, or One): the
columns begin one past the base, increase by one per opened tab, and clamp
at the host's maximum column Nine. -/
theorem C4_destination_columns_clamped (choice : Uri → SaveChoice)
    (activeTabUri : Option Uri) :
    (∀ (chosen : List Tab) (st : LoopOut), st.opened = [] →
        ∀ (k : Nat) (p : Uri × Nat),
          (splitLoop choice activeTabUri chosen st).opened[k]? = some p →
            p.2 = min (st.currentColumn + (k + 1)) 9) ∧
    (∀ (uris : List Uri) (st : LoopOut), st.opened = [] →
        ∀ (k : Nat) (p : Uri × Nat),
          (openLoop choice uris st).opened[k]? = some p →
            p.2 = min (st.currentColumn + (k + 1)) 9) := by
  constructor
  · intro chosen st hst k p hk
    refine splitLoop_opened_columns choice activeTabUri st.currentColumn chosen st ?_ ?_ k p hk
    · rw [hst]; rfl
    · intro k p h
      rw [hst] at h
      simp at h
  · intro uris st hst k p hk
    refine openLoop_opened_columns choice st.currentColumn uris st ?_ ?_ k p hk
    · rw [hst]; rfl
    · intro k p h
      rw [hst] at h
      simp at h

/-- C4 witness: with base column 8, the third opened tab overflows into the
clamped column 9. -/
theorem C4_destination_columns_clamped_witness :
    (([] : List (Uri × Nat)) = []) ∧
    (openLoop (fun _ => SaveChoice.save) ["u1", "u2", "u3"]
        ⟨⟨[⟨1, []⟩], none, 1⟩, [], [], 8, []⟩).opened[2]? = some ("u3", 9) ∧
    ("u3", 9).2 = min (8 + (2 + 1)) 9 := by
  refine ⟨rfl, by decide, ?_⟩
  exact (C4_destination_columns_clamped (fun _ => SaveChoice.save) none).2
    ["u1", "u2", "u3"] ⟨⟨[⟨1, []⟩], none, 1⟩, [], [], 8, []⟩ rfl 2 ("u3", 9) (by decide)

/-- C5: for every duplicate-free recorded order and primary-column tab
population with duplicate-free uris, replaying the recorded list in reverse
and moving each present tab to the front leaves the recorded-and-present
uris at the front of the column in exactly the recorded relative order,
followed by the unrecorded tabs in their prior relative order. -/
theorem C5_replay_restores_recorded_order (initialOrder : List Uri) (tabs : List Tab)
    (hord : initialOrder.Nodup)
    (htabs : (tabs.filterMap (fun t => t.input.uriProp)).Nodup) :
    replayInitialOrder initialOrder tabs
      = initialOrder.filterMap (fun u => tabs.find? (fun t => t.input.uriProp == some u))
        ++ tabs.filter (fun t =>
            match t.input.uriProp with
            | some u => !(initialOrder.contains u)
            | none => true) :=
  replay_core tabs htabs initialOrder hord

/-- C5 witness: replaying `["file:///a", "file:///b"]` over a column holding
b, a webview, and a reconstructs `[a, b, webview]`. -/
theorem C5_replay_restores_recorded_order_witness :
    (["file:///a", "file:///b"] : List Uri).Nodup ∧
    replayInitialOrder ["file:///a", "file:///b"]
        [⟨"b", TabInput.text "file:///b"⟩, ⟨"w", TabInput.webview "wv"⟩,
          ⟨"a", TabInput.text "file:///a"⟩]
      = (["file:///a", "file:///b"] : List Uri).filterMap (fun u =>
          [⟨"b", TabInput.text "file:///b"⟩, ⟨"w", TabInput.webview "wv"⟩,
            (⟨"a", TabInput.text "file:///a"⟩ : Tab)].find?
            (fun t => t.input.uriProp == some u))
        ++ [⟨"b", TabInput.text "file:///b"⟩, ⟨"w", TabInput.webview "wv"⟩,
            (⟨"a", TabInput.text "file:///a"⟩ : Tab)].filter (fun t =>
            match t.input.uriProp with
            | some u => !((["file:///a", "file:///b"] : List Uri).contains u)
            | none => true) := by
  refine ⟨by decide, ?_⟩
  exact C5_replay_restores_recorded_order ["file:///a", "file:///b"]
    [⟨"b", TabInput.text "file:///b"⟩, ⟨"w", TabInput.webview "wv"⟩,
      ⟨"a", TabInput.text "file:///a"⟩] (by decide) (by decide)

/-- C6: over tabs-to-move that all carry uris (as `collectTabsToMove`
produces), the sort used by close/consolidate permutes its input; orders it
by the comparator key — the uri's index in the recorded order, with
unrecorded tabs keyed past the end — so two recorded tabs are ordered by
their recorded indices; never places a recorded tab after an unrecorded
one; preserves the original relative order within every key class (tabs
compared equal); and in particular preserves the original relative order of
the unrecorded tabs. -/
theorem C6_close_sort_properties (initialOrder : List Uri) (tabs : List Tab)
    (hall : ∀ t ∈ tabs, (t.input.uriProp).isSome = true) :
    (jsStableSort (closeSortLe initialOrder) tabs).Perm tabs ∧
    (jsStableSort (closeSortLe initialOrder) tabs).Pairwise (keyLe initialOrder) ∧
    (jsStableSort (closeSortLe initialOrder) tabs).Pairwise
      (fun a b => tabRecorded initialOrder b = true → tabRecorded initialOrder a = true) ∧
    (∀ k : Nat, (jsStableSort (closeSortLe initialOrder) tabs).filter
        (fun t => keyOf initialOrder t == k)
      = tabs.filter (fun t => keyOf initialOrder t == k)) ∧
    (jsStableSort (closeSortLe initialOrder) tabs).filter
        (fun t => !(tabRecorded initialOrder t))
      = tabs.filter (fun t => !(tabRecorded initialOrder t)) := by
  have hperm := jsStableSort_perm (closeSortLe initialOrder) tabs
  have hsall : ∀ t ∈ jsStableSort (closeSortLe initialOrder) tabs,
      (t.input.uriProp).isSome = true :=
    fun t htm => hall t (hperm.mem_iff.mp htm)
  have hpair := jsStableSort_pairwise initialOrder tabs hall
  refine ⟨hperm, hpair, ?_, jsStableSort_filter_key initialOrder tabs hall, ?_⟩
  · refine hpair.imp_of_mem ?_
    intro a b ha hb hk hrb
    have hka := hk
    unfold keyLe at hka
    have hbk := (tabRecorded_iff_key_lt initialOrder b (hsall b hb)).mp hrb
    exact (tabRecorded_iff_key_lt initialOrder a (hsall a ha)).mpr (by omega)
  · have h1 : (jsStableSort (closeSortLe initialOrder) tabs).filter
        (fun t => !(tabRecorded initialOrder t))
      = (jsStableSort (closeSortLe initialOrder) tabs).filter
        (fun t => keyOf initialOrder t == initialOrder.length) :=
      List.filter_congr fun t htm => not_recorded_eq_key_len initialOrder t (hsall t htm)
    have h2 : tabs.filter (fun t => !(tabRecorded initialOrder t))
      = tabs.filter (fun t => keyOf initialOrder t == initialOrder.length) :=
      List.filter_congr fun t htm => not_recorded_eq_key_len initialOrder t (hall t htm)
    rw [h1, h2]
    exact jsStableSort_filter_key initialOrder tabs hall initialOrder.length

/-- C6 witness: sorting two unrecorded tabs x, y around recorded u3, u1
yields `[u1, u3, x, y]` — recorded tabs by index, unrecorded after them in
original order. -/
theorem C6_close_sort_properties_witness :
    (jsStableSort (closeSortLe ["u1", "u2", "u3"])
        [⟨"x", TabInput.text "x"⟩, ⟨"u3", TabInput.text "u3"⟩,
          ⟨"y", TabInput.text "y"⟩, ⟨"u1", TabInput.text "u1"⟩]).Perm
      [⟨"x", TabInput.text "x"⟩, ⟨"u3", TabInput.text "u3"⟩,
        ⟨"y", TabInput.text "y"⟩, ⟨"u1", TabInput.text "u1"⟩] ∧
    (jsStableSort (closeSortLe ["u1", "u2", "u3"])
        [⟨"x", TabInput.text "x"⟩, ⟨"u3", TabInput.text "u3"⟩,
          ⟨"y", TabInput.text "y"⟩, ⟨"u1", TabInput.text "u1"⟩]).filter
        (fun t => !(tabRecorded ["u1", "u2", "u3"] t))
      = [⟨"x", TabInput.text "x"⟩, ⟨"u3", TabInput.text "u3"⟩,
          ⟨"y", TabInput.text "y"⟩, (⟨"u1", TabInput.text "u1"⟩ : Tab)].filter
        (fun t => !(tabRecorded ["u1", "u2", "u3"] t)) := by
  have h := C6_close_sort_properties ["u1", "u2", "u3"]
    [⟨"x", TabInput.text "x"⟩, ⟨"u3", TabInput.text "u3"⟩,
      ⟨"y", TabInput.text "y"⟩, ⟨"u1", TabInput.text "u1"⟩] (by decide)
  exact ⟨h.1, h.2.2.2.2⟩

/-- C1: on a window with distinct columns, the closing pass of
close/consolidate removes, outside column One, exactly the tabs whose uris
are in the self-opened tracking set (and touches nothing in column One);
and every tab whose uri is not tracked — a tab the split operation did not
record, i.e. one the user opened — is still open (its document view is
somewhere in the window) after the whole close/consolidate command. -/
theorem C1_close_closes_exactly_tracked (s : ExtState)
    (hcols : (s.window.groups.map (fun g => g.viewColumn)).Nodup) :
    (closeSplitPass s.splitTabUris s.window).groups
      = s.window.groups.map (fun g =>
          if g.viewColumn = 1 then g
          else { g with tabs := g.tabs.filter (fun t => !(tabTracked s.splitTabUris t)) })
    ∧ ∀ g ∈ s.window.groups, ∀ t ∈ g.tabs, tabTracked s.splitTabUris t = false →
        inputOpenIn (closeSplitTabsCmd s).window t.input := by
  refine ⟨closeSplitPass_groups _ _ hcols, ?_⟩
  intro g hg t ht htr
  unfold closeSplitTabsCmd
  dsimp only
  exact inputOpenIn_replay _ _ _
    (inputOpenIn_layout _ _
      (inputOpenIn_moves t.input _ _
        (inputOpenIn_pass s.splitTabUris s.window hcols g hg t ht htr)))

/-- C1 witness: with tracked uri b, closing a window holding a in column One
and b, c in column 2 removes exactly the b tab, and the user-opened a and c
views are still open afterwards. -/
theorem C1_close_closes_exactly_tracked_witness :
    (closeSplitPass ["file:///b"]
        ⟨[⟨1, [⟨"a", TabInput.text "file:///a"⟩]⟩,
          ⟨2, [⟨"b", TabInput.text "file:///b"⟩, ⟨"c", TabInput.text "file:///c"⟩]⟩],
          none, 1⟩).groups
      = [⟨1, [⟨"a", TabInput.text "file:///a"⟩]⟩, ⟨2, [⟨"c", TabInput.text "file:///c"⟩]⟩]
    ∧ inputOpenIn
        (closeSplitTabsCmd
          ⟨⟨[⟨1, [⟨"a", TabInput.text "file:///a"⟩]⟩,
            ⟨2, [⟨"b", TabInput.text "file:///b"⟩, ⟨"c", TabInput.text "file:///c"⟩]⟩],
            none, 1⟩, ["file:///b"], [], [], []⟩).window
        (TabInput.text "file:///c") := by
  have h := C1_close_closes_exactly_tracked
    ⟨⟨[⟨1, [⟨"a", TabInput.text "file:///a"⟩]⟩,
      ⟨2, [⟨"b", TabInput.text "file:///b"⟩, ⟨"c", TabInput.text "file:///c"⟩]⟩],
      none, 1⟩, ["file:///b"], [], [], []⟩ (by decide)
  refine ⟨h.1.trans (by decide), ?_⟩
  exact h.2 ⟨2, [⟨"b", TabInput.text "file:///b"⟩, ⟨"c", TabInput.text "file:///c"⟩]⟩
    (by decide) ⟨"c", TabInput.text "file:///c"⟩ (by decide) (by decide)

/-- C2: order round trip.  Start from a window holding a single primary
column (column One, also the active group) whose tabs all carry text-document
uris with no duplicates, with the active editor (if any) in a column ≥ 1,
and with at least one labeled tab so the split command records the order.
Then for every selection outcome and every save-prompt behaviour, running
split and then close/consolidate leaves the window holding exactly the
primary column with those same tabs in the same left-to-right order. -/
theorem C2_order_round_trip (picked : Option (List String)) (choice : Uri → SaveChoice)
    (s : ExtState) (tabs : List Tab)
    (hg : s.window.groups = [{ viewColumn := 1, tabs := tabs }])
    (hagc : s.window.activeGroupCol = 1)
    (hact : ∀ u c, s.window.active = some (u, c) → 1 ≤ c)
    (hlab : getAllLabeledTabs s.window ≠ [])
    (hT : (tabs.filterMap (fun t => t.input.uriProp)).Nodup)
    (htext : ∀ t ∈ tabs, isTextTabInput t.input = true) :
    (closeSplitTabsCmd (splitSelectedTabsCmd picked choice s)).window.groups
      = [{ viewColumn := 1, tabs := tabs }] := by
  have hne : (getAllLabeledTabs s.window).isEmpty = false := by
    rcases hh : getAllLabeledTabs s.window with _ | ⟨x, xs⟩
    · exact absurd hh hlab
    · rfl
  have hnotempty : ¬((getAllLabeledTabs s.window).isEmpty = true) := by
    intro h
    rw [hne] at h
    cases h
  have hatg : activeTabGroup s.window = some { viewColumn := 1, tabs := tabs } := by
    unfold activeTabGroup
    rw [hg, hagc]
    exact List.find?_cons_of_pos _ (by simp)
  have hsnap : tabs.filter (fun t => isTextTabInput t.input) = tabs :=
    List.filter_eq_self.mpr (fun t ht => htext t ht)
  have hnodup1 : ((s.window.groups).map (fun g => g.viewColumn)).Nodup := by
    rw [hg]
    exact List.nodup_singleton _
  have hvac : ∀ g ∈ ([] : List TabGroup), ∀ t ∈ g.tabs,
      ∃ v, t.input.uriProp = some v ∧ s.splitTabUris.contains v = true :=
    fun g hgm => absurd hgm (List.not_mem_nil g)
  unfold splitSelectedTabsCmd
  rw [if_neg hnotempty]
  simp only [hatg, hsnap]
  rcases picked with _ | labels
  · exact closeSplitTabsCmd_restores _ tabs ⟨[], hg, hnodup1, hvac⟩ rfl hT htext
  · dsimp only
    by_cases hle : labels.isEmpty = true
    · rw [if_pos hle]
      exact closeSplitTabsCmd_restores _ tabs ⟨[], hg, hnodup1, hvac⟩ rfl hT htext
    · rw [if_neg hle]
      by_cases hce : ((getAllLabeledTabs s.window).filter
          (fun t => labels.contains t.label)).isEmpty = true
      · rw [if_pos hce]
        exact closeSplitTabsCmd_restores _ tabs ⟨[], hg, hnodup1, hvac⟩ rfl hT htext
      · rw [if_neg hce]
        refine closeSplitTabsCmd_restores _ tabs
          (splitLoop_window_shape choice _ tabs _ _ ?_ ?_) rfl hT htext
        · show 1 ≤ (match s.window.active with | some (_, c) => c | none => 1)
          rcases hsa : s.window.active with _ | ⟨u, c⟩
          · exact le_refl 1
          · exact hact u c hsa
        · exact ⟨[], hg, hnodup1, hvac⟩

/-- C2 witness: splitting tabs b and c out of a primary column [a, b, c]
(active editor a in column One) and closing again restores the primary
column [a, b, c] exactly. -/
theorem C2_order_round_trip_witness :
    (getAllLabeledTabs ⟨[⟨1, [⟨"a", TabInput.text "file:///a"⟩, ⟨"b", TabInput.text "file:///b"⟩,
          ⟨"c", TabInput.text "file:///c"⟩]⟩], some ("file:///a", 1), 1⟩ ≠ [])
    ∧ (closeSplitTabsCmd (splitSelectedTabsCmd (some ["b", "c"]) (fun _ => SaveChoice.save)
          ⟨⟨[⟨1, [⟨"a", TabInput.text "file:///a"⟩, ⟨"b", TabInput.text "file:///b"⟩,
            ⟨"c", TabInput.text "file:///c"⟩]⟩], some ("file:///a", 1), 1⟩,
            [], [], [], []⟩)).window.groups
        = [⟨1, [⟨"a", TabInput.text "file:///a"⟩, ⟨"b", TabInput.text "file:///b"⟩,
            ⟨"c", TabInput.text "file:///c"⟩]⟩] := by
  refine ⟨by decide, ?_⟩
  exact C2_order_round_trip (some ["b", "c"]) (fun _ => SaveChoice.save)
    ⟨⟨[⟨1, [⟨"a", TabInput.text "file:///a"⟩, ⟨"b", TabInput.text "file:///b"⟩,
      ⟨"c", TabInput.text "file:///c"⟩]⟩], some ("file:///a", 1), 1⟩, [], [], [], []⟩
    [⟨"a", TabInput.text "file:///a"⟩, ⟨"b", TabInput.text "file:///b"⟩,
      ⟨"c", TabInput.text "file:///c"⟩]
    rfl rfl
    (by intro u c h; injection h with h2; injection h2 with h3 h4; omega)
    (by decide) (by decide) (by decide)

end TabSplitter
